import Mathlib

/-!
Verification development for the `pdf_to_speech` structure-recovery layer.

The definitions below are a shallow embedding of `src/pdf_to_speech/latex.py`
and `src/pdf_to_speech/extract.py`.  Text is modelled as `List Char`, scan
positions as `Nat` indices (as in the Python source), Python exceptions
(`IndexError`, `FileNotFoundError`) as `Except` errors.  Regular-expression
passes from the source are embedded as specialised character-level scanners
that implement exactly the same matching discipline (leftmost match, ordered
alternation, greedy or lazy repetition as each pattern dictates).

Index loops from the source are embedded as structural recursion over the
suffix of the text starting at the loop index (so that all definitions are
kernel-computable); loops whose scan position jumps by a matched length carry
an explicit fuel counter that is large enough by construction, with the
fuel-exhausted branch returning the same value as the source's own
unreachable fallback line where it has one.
-/

namespace PdfToSpeech

/-- Text is a list of characters; Python string positions become `Nat` indices. -/
abbrev Str := List Char

/-- Convenience conversion for concrete string literals. -/
def str (s : String) : Str := s.toList

/-- Characters of the Python regex class `\s` (ASCII part): space, tab,
newline, carriage return, vertical tab, form feed. -/
def isPySpace (c : Char) : Bool :=
  c = ' ' || c = '\t' || c = '\n' || c = '\r' || c = '\x0b' || c = '\x0c'

/-- Characters of the literal Python membership test `text[i] in " \t\n"`
used by `_skip_optional_arg`. -/
def isWsSTN (c : Char) : Bool :=
  c = ' ' || c = '\t' || c = '\n'

/-- ASCII letter test, the regex class `[a-zA-Z]`. -/
def isAsciiLetter (c : Char) : Bool :=
  ('a' ≤ c && c ≤ 'z') || ('A' ≤ c && c ≤ 'Z')

/-- ASCII digit test, the regex class `[0-9]`. -/
def isDigitCh (c : Char) : Bool :=
  '0' ≤ c && c ≤ '9'

/-- Word-character test, the regex class `\w` (ASCII): letters, digits, underscore. -/
def isWordCh (c : Char) : Bool :=
  isAsciiLetter c || isDigitCh c || c = '_'

/-- ASCII lower-casing, as Python `str.lower` acts on ASCII input. -/
def toLowerCh (c : Char) : Char :=
  if 'A' ≤ c && c ≤ 'Z' then Char.ofNat (c.toNat + 32) else c

/-- Lower-case every character, Python `str.lower` on ASCII text. -/
def toLowerStr (s : Str) : Str := s.map toLowerCh

/-- Python `str.strip()` on ASCII text: drop leading and trailing whitespace. -/
def pyStrip (s : Str) : Str :=
  ((s.dropWhile isPySpace).reverse.dropWhile isPySpace).reverse

/-- Decimal digits of a natural number, as Python `str(n)` renders counters. -/
def natDigits (n : Nat) : Str := Nat.toDigits 10 n

/-!  Embedding of `_extract_braced` (latex.py lines 56-79).  The loop walks
index `i` from `pos`, skipping the character after every escape character and
tracking brace depth; `depth` reaches 1 at the opening brace itself. -/

/-- Scanning loop of `_extract_braced`, recursion over the suffix
`text.drop i`: mirrors the Python `while i < len(text)` loop body character
for character (an `i + 2` escape step past the last character leaves the loop
exactly as `i` reaching the length does). -/
def extractBracedGo (text : Str) (pos : Nat) : Str → Nat → Nat → Str × Nat
  | [], _, _ => (text.drop (pos + 1), text.length)
  | ch :: rest, i, depth =>
    if ch = '\\' then
      match rest with
      | [] => (text.drop (pos + 1), text.length)
      | _ :: rest2 => extractBracedGo text pos rest2 (i + 2) depth
    else if ch = '\x7b' then
      extractBracedGo text pos rest (i + 1) (depth + 1)
    else if ch = '\x7d' then
      if depth = 1 then ((text.drop (pos + 1)).take (i - (pos + 1)), i + 1)
      else extractBracedGo text pos rest (i + 1) (depth - 1)
    else
      extractBracedGo text pos rest (i + 1) depth

/-- Embedding of `_extract_braced(text, pos)`: content of the balanced braces
starting at `pos`, and the position just past the closing brace.  Returns
`("", pos)` when `pos` is past the end or not at an opening brace. -/
def extractBraced (text : Str) (pos : Nat) : Str × Nat :=
  match text.drop pos with
  | '\x7b' :: _ => extractBracedGo text pos (text.drop pos) pos 0
  | _ => ([], pos)

/-!  Embedding of `_skip_optional_arg` (latex.py lines 82-95). -/

/-- Whitespace loop of `_skip_optional_arg`: first index at or after `i` whose
character is not in `" \t\n"` (the suffix argument is `text.drop i`). -/
def skipWsGo : Str → Nat → Nat
  | [], i => i
  | c :: rest, i => if isWsSTN c then skipWsGo rest (i + 1) else i

/-- Index-level wrapper for the whitespace loop. -/
def skipWsSTN (text : Str) (i : Nat) : Nat :=
  skipWsGo (text.drop i) i

/-- Bracket-scanning loop of `_skip_optional_arg`: first index at or after `i`
whose character is `]`, or the text length. -/
def skipToRBGo : Str → Nat → Nat
  | [], i => i
  | c :: rest, i => if c = ']' then i else skipToRBGo rest (i + 1)

/-- Index-level wrapper for the bracket-scanning loop. -/
def skipToRBracket (text : Str) (i : Nat) : Nat :=
  skipToRBGo (text.drop i) i

/-- Embedding of `_skip_optional_arg(text, pos)`: past an optional `[…]`
argument (after whitespace), else `pos` unchanged; also `pos` unchanged when a
`[` is opened but no `]` follows before the end of text. -/
def skipOptionalArg (text : Str) (pos : Nat) : Nat :=
  let i := skipWsSTN text pos
  match text.drop i with
  | '[' :: _ =>
    let j := skipToRBracket text i
    if j < text.length then j + 1 else pos
  | _ => pos

/-!  Matcher primitives.  A matcher takes the suffix of the text starting at
the current scan position and returns the number of characters a regex match
starting there consumes (`none` when the pattern does not match there).
Patterns whose alternatives or character classes cannot overlap their
delimiters are deterministic, so returning a single consumed length is exactly
Python `re` back-tracking semantics for the patterns embedded below. -/

/-- Literal pattern: matches when `lit` is a prefix of the suffix. -/
def litP (lit : Str) (l : Str) : Option Nat :=
  if lit.isPrefixOf l then some lit.length else none

/-- Case-insensitive prefix test (regex literal under `re.IGNORECASE`). -/
def ciPrefix : Str → Str → Bool
  | [], _ => true
  | _ :: _, [] => false
  | c :: cs, d :: ds => toLowerCh c = toLowerCh d && ciPrefix cs ds

/-- Case-insensitive literal pattern. -/
def litCiP (lit : Str) (l : Str) : Option Nat :=
  if ciPrefix lit l then some lit.length else none

/-- Sequencing of matchers: consume with `p`, then with `q` on what remains. -/
def seqP (p q : Str → Option Nat) (l : Str) : Option Nat :=
  match p l with
  | none => none
  | some k =>
    match q (l.drop k) with
    | none => none
    | some k2 => some (k + k2)

/-- Greedy character-class repetition `f*`. -/
def starC (f : Char → Bool) (l : Str) : Option Nat :=
  some (l.takeWhile f).length

/-- Single mandatory class character `f`. -/
def chP (f : Char → Bool) (l : Str) : Option Nat :=
  match l with
  | [] => none
  | d :: _ => if f d then some 1 else none

/-- Optional single character `c?`. -/
def optC (c : Char) (l : Str) : Option Nat :=
  match l with
  | [] => some 0
  | d :: _ => if d = c then some 1 else some 0

/-- Ordered alternation of literal alternatives (first prefix wins; used only
for alternations whose continuations cannot overlap, where this equals
back-tracking). -/
def altLits (lits : List Str) (l : Str) : Option Nat :=
  match lits with
  | [] => none
  | w :: ws =>
    match litP w l with
    | some k => some k
    | none => altLits ws l

/-- Zero-width word-boundary `\b` placed after a word character: succeeds when
the next character is absent or not a word character. -/
def wordBoundaryP (l : Str) : Option Nat :=
  match l with
  | [] => some 0
  | d :: _ => if isWordCh d then none else some 0

/-- Environment tag pattern `\\KW\s*\{NAME\*?\}` (the begin/end patterns
compiled in `_find_env_end`; `NAME` is the `re.escape`d environment name). -/
def envTagP (kw : Str) (name : Str) (l : Str) : Option Nat :=
  seqP (litP ('\\' :: kw))
    (seqP (starC isPySpace)
      (seqP (litP [ '\x7b' ])
        (seqP (litP name)
          (seqP (optC '*') (litP [ '\x7d' ]))))) l

/-- Leftmost-search loop, recursion over the suffix of the text starting at
`pos`: least position at which `p` matches, with the consumed length. -/
def searchFromGo (p : Str → Option Nat) : Str → Nat → Option (Nat × Nat)
  | [], _ => none
  | c :: rest, pos =>
    match p (c :: rest) with
    | some k => some (pos, k)
    | none => searchFromGo p rest (pos + 1)

/-- Leftmost search from `pos`: the index `s ≥ pos` of the first match of `p`
and its consumed length, as `re.search(pattern, text, pos)` yields
`m.start()` and `m.end() - m.start()`. -/
def searchFrom (p : Str → Option Nat) (text : Str) (pos : Nat) :
    Option (Nat × Nat) :=
  searchFromGo p (text.drop pos) pos

/-!  Basic facts about the matcher primitives, used to bound scan positions. -/

/-- Loop of `_find_env_end`: `depth` and `scan` as in the Python `while` loop. -/
def findEnvEndLoop (text : Str) (contentStart : Nat) (name : Str) :
    Nat → Nat → Nat → Str × Nat
  | 0, _, _ => (text.drop contentStart, text.length)
  | fuel + 1, depth, scan =>
    match searchFrom (envTagP (str "end") name) text scan with
    | none => (text.drop contentStart, text.length)
    | some (neS, neK) =>
      match searchFrom (envTagP (str "begin") name) text scan with
      | some (nbS, nbK) =>
        if nbS < neS then
          findEnvEndLoop text contentStart name fuel (depth + 1) (nbS + nbK)
        else if depth = 1 then
          ((text.drop contentStart).take (neS - contentStart), neS + neK)
        else
          findEnvEndLoop text contentStart name fuel (depth - 1) (neS + neK)
      | none =>
        if depth = 1 then
          ((text.drop contentStart).take (neS - contentStart), neS + neK)
        else
          findEnvEndLoop text contentStart name fuel (depth - 1) (neS + neK)

/-- Embedding of `_find_env_end(text, content_start, env_name)`. -/
def findEnvEnd (text : Str) (contentStart : Nat) (name : Str) : Str × Nat :=
  findEnvEndLoop text contentStart name (text.length + 1) 1 contentStart

/-!  Substitution driver for the `re.sub` passes of `_clean_text`
(latex.py lines 140-213).  A substitution matcher returns the replacement
text and the total number of characters the match consumes (always at least
one for every pattern below).  The driver scans left to right: on a match it
emits the replacement and continues after the match, otherwise it keeps the
character and advances by one — exactly `re.sub` for non-empty matches.  The
fuel counter starts at the text length, which suffices because every step
consumes at least one character. -/

/-- Fuel-indexed loop of the substitution driver. -/
def substAllGo (p : Str → Option (Str × Nat)) : Nat → Str → Str
  | _, [] => []
  | 0, s => s
  | fuel + 1, c :: cs =>
    match p (c :: cs) with
    | some (rep, k) => rep ++ substAllGo p fuel (cs.drop (k - 1))
    | none => c :: substAllGo p fuel cs

/-- Replace every (non-overlapping, leftmost) match of `p` in `s`. -/
def substAll (p : Str → Option (Str × Nat)) (s : Str) : Str :=
  substAllGo p s.length s

/-- Attach a fixed replacement to a plain consumed-length matcher. -/
def withRep (rep : Str) (p : Str → Option Nat) (l : Str) : Option (Str × Nat) :=
  match p l with
  | some k => some (rep, k)
  | none => none

/-- Apply a rewriting pass `n` times (the `for _ in range(4)` loops). -/
def passes (n : Nat) (f : Str → Str) (t : Str) : Str :=
  match n with
  | 0 => t
  | n + 1 => passes n f (f t)

/-- First match of `p` anywhere in the argument: offset of the match start
and consumed length.  Implements the lazy gap `.*?pattern`. -/
def findFirstMatch (p : Str → Option Nat) : Str → Option (Nat × Nat)
  | [] => none
  | c :: cs =>
    match p (c :: cs) with
    | some k => some (0, k)
    | none =>
      match findFirstMatch p cs with
      | some (j, k) => some (j + 1, k)
      | none => none

/-- Bracket group `\[[^\]]*\]` (the `]` is required). -/
def bracketGroupP (l : Str) : Option Nat :=
  match l with
  | '[' :: rest =>
    let run := rest.takeWhile (fun c => !(c = ']'))
    match rest.drop run.length with
    | ']' :: _ => some (run.length + 2)
    | _ => none
  | _ => none

/-- Brace argument `\{[^}]*\}` (content may contain `{` but not `}`). -/
def braceArgP (l : Str) : Option Nat :=
  match l with
  | '\x7b' :: rest =>
    let run := rest.takeWhile (fun c => !(c = '\x7d'))
    match rest.drop run.length with
    | '\x7d' :: _ => some (run.length + 2)
    | _ => none
  | _ => none

/-- Capturing brace argument `\{([^}]*)\}`. -/
def braceArgCapP (l : Str) : Option (Str × Nat) :=
  match l with
  | '\x7b' :: rest =>
    let run := rest.takeWhile (fun c => !(c = '\x7d'))
    match rest.drop run.length with
    | '\x7d' :: _ => some (run, run.length + 2)
    | _ => none
  | _ => none

/-- Capturing brace-free brace argument `\{([^{}]*)\}`. -/
def braceArgNNP (l : Str) : Option (Str × Nat) :=
  match l with
  | '\x7b' :: rest =>
    let run := rest.takeWhile (fun c => !(c = '\x7b') && !(c = '\x7d'))
    match rest.drop run.length with
    | '\x7d' :: _ => some (run, run.length + 2)
    | _ => none
  | _ => none

/-- Display-math environment names, in the source's alternation order. -/
def mathEnvNames : List Str :=
  [str "equation", str "align", str "eqnarray", str "gather",
   str "multline", str "displaymath"]

/-- Math environment tag `\\KW\{(?:NAMES)\*?\}` (no whitespace allowed here,
unlike the `_find_env_end` patterns). -/
def mathTagP (kw : Str) (l : Str) : Option Nat :=
  seqP (litP ('\\' :: kw ++ [ '\x7b' ]))
    (seqP (altLits mathEnvNames) (seqP (optC '*') (litP [ '\x7d' ]))) l

/-- Display-math pass: `\begin{...}.*?\end{...}` (DOTALL, lazy) → `" formula "`. -/
def displayMathP (l : Str) : Option (Str × Nat) :=
  match mathTagP (str "begin") l with
  | none => none
  | some k1 =>
    match findFirstMatch (mathTagP (str "end")) (l.drop k1) with
    | none => none
    | some (j, k2) => some (str " formula ", k1 + j + k2)

/-- Double-dollar pass: `\$\$.*?\$\$` (DOTALL, lazy) → `" formula "`. -/
def dollarDisplayP (l : Str) : Option (Str × Nat) :=
  match l with
  | '$' :: '$' :: rest =>
    match findFirstMatch (litP (str "$$")) rest with
    | none => none
    | some (j, k2) => some (str " formula ", 2 + j + k2)
  | _ => none

/-- Inline-math pass: `\$[^$\n]{0,200}\$` → `"formula"`.  The class excludes
the closing delimiter, so the bounded greedy repetition is deterministic. -/
def inlineMathP (l : Str) : Option (Str × Nat) :=
  match l with
  | '$' :: rest =>
    let run := rest.takeWhile (fun c => !(c = '$') && !(c = '\n'))
    if run.length ≤ 200 then
      match rest.drop run.length with
      | '$' :: _ => some (str "formula", run.length + 2)
      | _ => none
    else none
  | _ => none

/-- Command alternatives followed by a word boundary, trying each alternative
in order with full back-tracking (`\\(?:w1|w2|…)\b`). -/
def cmdWordBAux (words : List Str) (rest : Str) : Option Nat :=
  match words with
  | [] => none
  | w :: ws =>
    if w.isPrefixOf rest then
      match wordBoundaryP (rest.drop w.length) with
      | some _ => some (1 + w.length)
      | none => cmdWordBAux ws rest
    else cmdWordBAux ws rest

/-- Spacing commands `\\(?:noindent|bigskip|medskip|smallskip|vfill|hfill)\b`. -/
def spacingCmdP (l : Str) : Option Nat :=
  match l with
  | '\\' :: rest =>
    cmdWordBAux
      [str "noindent", str "bigskip", str "medskip", str "smallskip",
       str "vfill", str "hfill"] rest
  | _ => none

/-- Command alternatives with a starred variant and a mandatory brace
argument (`\\(?:w1|w2)\*?\{[^}]*\}`). -/
def cmdStarBraceAux (words : List Str) (rest : Str) : Option Nat :=
  match words with
  | [] => none
  | w :: ws =>
    if w.isPrefixOf rest then
      match seqP (optC '*') braceArgP (rest.drop w.length) with
      | some k2 => some (1 + w.length + k2)
      | none => cmdStarBraceAux ws rest
    else cmdStarBraceAux ws rest

/-- Dimension-taking spacing commands `\\(?:vspace|hspace)\*?\{[^}]*\}`. -/
def vspaceCmdP (l : Str) : Option Nat :=
  match l with
  | '\\' :: rest => cmdStarBraceAux [str "vspace", str "hspace"] rest
  | _ => none

/-- Break commands `\\(?:newline|linebreak)\b\*?`. -/
def newlineCmdP (l : Str) : Option Nat :=
  match l with
  | '\\' :: rest => newlineCmdAux [str "newline", str "linebreak"] rest
  | _ => none
where
  newlineCmdAux (words : List Str) (rest : Str) : Option Nat :=
    match words with
    | [] => none
    | w :: ws =>
      if w.isPrefixOf rest then
        match wordBoundaryP (rest.drop w.length) with
        | some _ =>
          match optC '*' (rest.drop w.length) with
          | some st => some (1 + w.length + st)
          | none => newlineCmdAux ws rest
        | none => newlineCmdAux ws rest
      else newlineCmdAux ws rest

/-- Row-break pass `\\\\(?:\[[^\]]*\])?` (a literal double backslash with an
optional dimension argument; a malformed bracket group degrades to the bare
double backslash, as the optional regex group would). -/
def doubleBackslashP (l : Str) : Option Nat :=
  match l with
  | '\\' :: '\\' :: rest =>
    match bracketGroupP rest with
    | some k => some (2 + k)
    | none => some 2
  | _ => none

/-- Content-free page/title commands
`\\(?:newpage|clearpage|cleardoublepage|maketitle|tableofcontents|bibliographystyle|bibliography)\b(?:\{[^}]*\})?`. -/
def pageCmdP (l : Str) : Option Nat :=
  match l with
  | '\\' :: rest =>
    pageCmdAux
      [str "newpage", str "clearpage", str "cleardoublepage", str "maketitle",
       str "tableofcontents", str "bibliographystyle", str "bibliography"] rest
  | _ => none
where
  pageCmdAux (words : List Str) (rest : Str) : Option Nat :=
    match words with
    | [] => none
    | w :: ws =>
      if w.isPrefixOf rest then
        match wordBoundaryP (rest.drop w.length) with
        | some _ =>
          match braceArgP (rest.drop w.length) with
          | some k => some (1 + w.length + k)
          | none => some (1 + w.length)
        | none => pageCmdAux ws rest
      else pageCmdAux ws rest

/-- Command alternatives with a mandatory brace argument
(`\\(?:w1|w2|…)\{[^}]*\}`), per-alternative back-tracking. -/
def cmdBraceAux (words : List Str) (rest : Str) : Option Nat :=
  match words with
  | [] => none
  | w :: ws =>
    if w.isPrefixOf rest then
      match braceArgP (rest.drop w.length) with
      | some k => some (1 + w.length + k)
      | none => cmdBraceAux ws rest
    else cmdBraceAux ws rest

/-- Citation/reference pass `\\(?:cite[a-z]*|ref|eqref|label|pageref)\{[^}]*\}`
(content dropped).  `cite` may be followed by further lowercase letters
(`\citep`, `\citet` …). -/
def citeP (l : Str) : Option Nat :=
  match l with
  | '\\' :: rest =>
    match citeAlt rest with
    | some k => some k
    | none => cmdBraceAux [str "ref", str "eqref", str "label", str "pageref"] rest
  | _ => none
where
  citeAlt (rest : Str) : Option Nat :=
    if (str "cite").isPrefixOf rest then
      let tail := rest.drop 4
      let run := tail.takeWhile (fun c => 'a' ≤ c && c ≤ 'z')
      match braceArgP (tail.drop run.length) with
      | some k => some (1 + 4 + run.length + k)
      | none => none
    else none

/-- Footnote pass `\\footnote\{[^{}]*(?:\{[^{}]*\}[^{}]*)?\}` (drops a
footnote containing at most one nested brace group). -/
def footnoteP (l : Str) : Option Nat :=
  match l with
  | '\\' :: rest =>
    if (str "footnote\x7b").isPrefixOf rest then
      let t1 := rest.drop 9
      let a := t1.takeWhile (fun c => !(c = '\x7b') && !(c = '\x7d'))
      match t1.drop a.length with
      | '\x7d' :: _ => some (10 + a.length + 1)
      | '\x7b' :: t3 =>
        let b := t3.takeWhile (fun c => !(c = '\x7b') && !(c = '\x7d'))
        match t3.drop b.length with
        | '\x7d' :: t4 =>
          let cc := t4.takeWhile (fun c => !(c = '\x7b') && !(c = '\x7d'))
          match t4.drop cc.length with
          | '\x7d' :: _ => some (10 + a.length + 1 + b.length + 1 + cc.length + 1)
          | _ => none
        | _ => none
      | _ => none
    else none
  | _ => none

/-- Graphics-inclusion pass `\\includegraphics\s*(?:\[[^\]]*\])?\{[^}]*\}`. -/
def includegraphicsP (l : Str) : Option Nat :=
  match l with
  | '\\' :: rest =>
    if (str "includegraphics").isPrefixOf rest then
      let t1 := rest.drop 15
      let ws := t1.takeWhile isPySpace
      let t2 := t1.drop ws.length
      let bk := match bracketGroupP t2 with | some k => k | none => 0
      match braceArgP (t2.drop bk) with
      | some k => some (1 + 15 + ws.length + bk + k)
      | none => none
    else none
  | _ => none

/-- Hyperlink pass `\\url\{([^}]*)\}` → the URL text. -/
def urlP (l : Str) : Option (Str × Nat) :=
  match l with
  | '\\' :: rest =>
    if (str "url").isPrefixOf rest then
      match braceArgCapP (rest.drop 3) with
      | some (cap, k) => some (cap, 1 + 3 + k)
      | none => none
    else none
  | _ => none

/-- Labelled-hyperlink pass `\\href\{[^}]*\}\{([^{}]*)\}` → the label text. -/
def hrefP (l : Str) : Option (Str × Nat) :=
  match l with
  | '\\' :: rest =>
    if (str "href").isPrefixOf rest then
      let t1 := rest.drop 4
      match braceArgP t1 with
      | some k1 =>
        match braceArgNNP (t1.drop k1) with
        | some (cap, k2) => some (cap, 1 + 4 + k1 + k2)
        | none => none
      | none => none
    else none
  | _ => none

/-- Unwrap alternatives with a capturing brace-free argument
(`\\(?:w1|…)\{([^{}]*)\}`), per-alternative back-tracking. -/
def unwrapCmdAux (words : List Str) (rest : Str) : Option (Str × Nat) :=
  match words with
  | [] => none
  | w :: ws =>
    if w.isPrefixOf rest then
      match braceArgNNP (rest.drop w.length) with
      | some (cap, k) => some (cap, 1 + w.length + k)
      | none => unwrapCmdAux ws rest
    else unwrapCmdAux ws rest

/-- Formatting command names, in the source's alternation order (`text` last,
so the longer names win, as with regex leftmost-alternation). -/
def fmtNames : List Str :=
  [str "textbf", str "textit", str "emph", str "texttt", str "textrm",
   str "textsc", str "textup", str "textsf", str "textmd", str "text"]

/-- Formatting-unwrap pass `\\(?:textbf|…|text)\{([^{}]*)\}` → inner text. -/
def fmtP (l : Str) : Option (Str × Nat) :=
  match l with
  | '\\' :: rest => unwrapCmdAux fmtNames rest
  | _ => none

/-- Non-breaking-space pass: `text.replace("~", " ")`. -/
def tildeP (l : Str) : Option Nat :=
  match l with
  | '~' :: _ => some 1
  | _ => none

/-- Generic unwrap pass `\\[a-zA-Z]+\*?\{([^{}]*)\}` → inner text. -/
def genericUnwrapP (l : Str) : Option (Str × Nat) :=
  match l with
  | '\\' :: rest =>
    let name := rest.takeWhile isAsciiLetter
    if name.length = 0 then none
    else
      let t1 := rest.drop name.length
      let st := match t1 with | '*' :: _ => 1 | _ => 0
      match braceArgNNP (t1.drop st) with
      | some (cap, k) => some (cap, 1 + name.length + st + k)
      | none => none
  | _ => none

/-- Bare-command pass `\\[a-zA-Z]+\*?` → `" "`. -/
def bareCmdP (l : Str) : Option Nat :=
  match l with
  | '\\' :: rest =>
    let name := rest.takeWhile isAsciiLetter
    if name.length = 0 then none
    else
      let st := match rest.drop name.length with | '*' :: _ => 1 | _ => 0
      some (1 + name.length + st)
  | _ => none

/-- Characters un-escaped by the pass `\\([%$&#_{}|<>])`. -/
def escSpecials : Str := str "%$&#_\x7b\x7d|<>"

/-- Escaped-special pass `\\([%$&#_{}|<>])` → the bare character. -/
def escCharP (l : Str) : Option (Str × Nat) :=
  match l with
  | '\\' :: c :: _ => if escSpecials.contains c then some ([c], 2) else none
  | _ => none

/-- Stray-brace pass `[{}]` → removed. -/
def braceDropP (l : Str) : Option Nat :=
  match l with
  | c :: _ => if c = '\x7b' || c = '\x7d' then some 1 else none
  | [] => none

/-- Em-dash pass: `text.replace("---", "—")`. -/
def dashEmP (l : Str) : Option (Str × Nat) :=
  if (str "---").isPrefixOf l then some ([ '—' ], 3) else none

/-- En-dash pass: `text.replace("--", "–")`. -/
def dashEnP (l : Str) : Option (Str × Nat) :=
  if (str "--").isPrefixOf l then some ([ '–' ], 2) else none

/-- Horizontal-whitespace collapse `[ \t]+` → `" "`. -/
def hwsRunP (l : Str) : Option (Str × Nat) :=
  match l with
  | c :: _ =>
    if c = ' ' || c = '\t' then
      some (str " ", (l.takeWhile (fun d => d = ' ' || d = '\t')).length)
    else none
  | [] => none

/-- Newline collapse `\n{3,}` → `"\n\n"`. -/
def nlRunP (l : Str) : Option (Str × Nat) :=
  match l with
  | '\n' :: _ =>
    let run := l.takeWhile (fun d => d = '\n')
    if 3 ≤ run.length then some (str "\n\n", run.length) else none
  | _ => none

/-- Embedding of `_clean_text(text)` (latex.py lines 140-213): the ordered
rewrite cascade that strips markup down to readable plain text. -/
def cleanText (text : Str) : Str :=
  let t := substAll displayMathP text
  let t := substAll dollarDisplayP t
  let t := substAll inlineMathP t
  let t := substAll (withRep (str " ") spacingCmdP) t
  let t := substAll (withRep (str " ") vspaceCmdP) t
  let t := substAll (withRep (str " ") newlineCmdP) t
  let t := substAll (withRep (str " ") doubleBackslashP) t
  let t := substAll (withRep [] pageCmdP) t
  let t := substAll (withRep [] citeP) t
  let t := substAll (withRep [] footnoteP) t
  let t := substAll (withRep [] includegraphicsP) t
  let t := substAll urlP t
  let t := substAll hrefP t
  let t := passes 4 (substAll fmtP) t
  let t := substAll (withRep (str " ") tildeP) t
  let t := passes 4 (substAll genericUnwrapP) t
  let t := substAll (withRep (str " ") bareCmdP) t
  let t := substAll escCharP t
  let t := substAll (withRep [] braceDropP) t
  let t := substAll dashEmP t
  let t := substAll dashEnP t
  let t := substAll hwsRunP t
  let t := substAll nlRunP t
  pyStrip t

/-!  Content elements: the single-key dicts produced by the parser
(`{"Title": …}`, `{"Headline": …}`, …) become a tagged sum. -/

/-- One content element, as the element dicts of latex.py. -/
inductive Element where
  | Title (text : Str)
  | Abstract (text : Str)
  | Headline (text : Str)
  | Paragraph (text : Str)
  | Table (text : Str)
  | TableCaption (text : Str)
  | FigureCaption (text : Str)
deriving DecidableEq, Repr

/-!  Embedding of `_tabular_to_text` (latex.py lines 220-231). -/

/-- Loop of the splitter for Python `str.split(sep)` with a non-empty
separator: non-overlapping, left to right, keeping empty pieces. -/
def splitSepGo (sep : Str) : Nat → Str → Str → List Str
  | _, acc, [] => [acc.reverse]
  | 0, acc, s => [acc.reverse ++ s]
  | fuel + 1, acc, c :: cs =>
    if sep.isPrefixOf (c :: cs) then
      acc.reverse :: splitSepGo sep fuel [] ((c :: cs).drop sep.length)
    else
      splitSepGo sep fuel (c :: acc) cs

/-- Python `s.split(sep)` for a non-empty separator. -/
def splitSep (sep : Str) (s : Str) : List Str :=
  splitSepGo sep (s.length + 1) [] s

/-- Decorative-rule pass `\\(?:toprule|midrule|bottomrule|hline)\b`. -/
def rulesCmdP (l : Str) : Option Nat :=
  match l with
  | '\\' :: rest =>
    cmdWordBAux
      [str "toprule", str "midrule", str "bottomrule", str "hline"] rest
  | _ => none

/-- Embedding of `_tabular_to_text(tabular_content)`: drop rules, split rows
on the double backslash, split cells on `&`, clean each cell, drop empty
cells and rows, join cells with three spaces and rows with newlines. -/
def tabularToText (tabularContent : Str) : Str :=
  let content := substAll (withRep [] rulesCmdP) tabularContent
  let rows := splitSep (str "\\\\") content
  let lines := rows.filterMap fun row =>
    let cells := (splitSep (str "&") row).map fun c => pyStrip (cleanText c)
    let cells := cells.filter fun c => !c.isEmpty
    if cells.isEmpty then none else some (List.intercalate (str "   ") cells)
  List.intercalate (str "\n") lines

/-!  Embedding of `_parse_table_env` / `_parse_figure_env`
(latex.py lines 234-280).  The Python functions append to a shared element
list; here they return the appended elements. -/

/-- Caption head pattern `\\caption\s*(?:\[[^\]]*\])?\s*\{`; the consumed
length ends just past the opening brace (`m.end()`). -/
def captionHeadP (l : Str) : Option Nat :=
  match l with
  | '\\' :: rest =>
    if (str "caption").isPrefixOf rest then
      let t1 := rest.drop 7
      let w1 := t1.takeWhile isPySpace
      let t2 := t1.drop w1.length
      let bk := match bracketGroupP t2 with | some k => k | none => 0
      let t3 := t2.drop bk
      let w2 := t3.takeWhile isPySpace
      match t3.drop w2.length with
      | '\x7b' :: _ => some (1 + 7 + w1.length + bk + w2.length + 1)
      | _ => none
    else none
  | _ => none

/-- Caption-collection loop: the `re.finditer` scan of `_parse_table_env` and
`_parse_figure_env`; for every caption head, the braced content at
`m.end() - 1` is extracted, cleaned and kept when non-empty. -/
def collectCaptionsGo (text : Str) : Nat → Nat → List Str
  | 0, _ => []
  | fuel + 1, pos =>
    if pos < text.length then
      match captionHeadP (text.drop pos) with
      | some k =>
        let content := (extractBraced text (pos + k - 1)).1
        let cap := pyStrip (cleanText content)
        if cap.isEmpty then collectCaptionsGo text fuel (pos + k)
        else cap :: collectCaptionsGo text fuel (pos + k)
      | none => collectCaptionsGo text fuel (pos + 1)
    else []

/-- All cleaned, non-empty caption texts of an environment body, in order. -/
def collectCaptions (text : Str) : List Str :=
  collectCaptionsGo text (text.length + 1) 0

/-- Search loop carrying a payload (match start, payload, consumed length). -/
def searchInfoGo {α : Type} (p : Str → Option (α × Nat)) :
    Str → Nat → Option (Nat × α × Nat)
  | [], _ => none
  | c :: rest, pos =>
    match p (c :: rest) with
    | some (a, k) => some (pos, a, k)
    | none => searchInfoGo p rest (pos + 1)

/-- Leftmost search from `pos` for a payload-carrying matcher. -/
def searchInfo {α : Type} (p : Str → Option (α × Nat)) (text : Str)
    (pos : Nat) : Option (Nat × α × Nat) :=
  searchInfoGo p (text.drop pos) pos

/-- Tabular-begin pattern `\\begin\s*\{(tabular[x*]?)\}` (case sensitive);
the payload is the captured environment name. -/
def tabularBeginP (l : Str) : Option (Str × Nat) :=
  match l with
  | '\\' :: rest =>
    if (str "begin").isPrefixOf rest then
      let t1 := rest.drop 5
      let w := t1.takeWhile isPySpace
      match t1.drop w.length with
      | '\x7b' :: t3 =>
        if (str "tabular").isPrefixOf t3 then
          match t3.drop 7 with
          | 'x' :: '\x7d' :: _ => some (str "tabularx", 1 + 5 + w.length + 1 + 8 + 1)
          | '*' :: '\x7d' :: _ => some (str "tabular*", 1 + 5 + w.length + 1 + 8 + 1)
          | '\x7d' :: _ => some (str "tabular", 1 + 5 + w.length + 1 + 7 + 1)
          | _ => none
        else none
      | _ => none
    else none
  | _ => none

/-- End-of-tabular pattern `\\end\{tabular[x*]?\}` (no whitespace allowed). -/
def endTabularP (l : Str) : Option Nat :=
  match l with
  | '\\' :: rest =>
    if (str "end\x7btabular").isPrefixOf rest then
      match rest.drop 11 with
      | 'x' :: '\x7d' :: _ => some (1 + 11 + 2)
      | '*' :: '\x7d' :: _ => some (1 + 11 + 2)
      | '\x7d' :: _ => some (1 + 11 + 1)
      | _ => none
    else none
  | _ => none

/-- End-of-table marker `\\end\s*\{table\*?\}` stripped from trailing notes. -/
def endTableMarkP (l : Str) : Option Nat :=
  match l with
  | '\\' :: rest =>
    if (str "end").isPrefixOf rest then
      let t1 := rest.drop 3
      let w := t1.takeWhile isPySpace
      match t1.drop w.length with
      | '\x7b' :: t2 =>
        if (str "table").isPrefixOf t2 then
          match t2.drop 5 with
          | '*' :: '\x7d' :: _ => some (1 + 3 + w.length + 1 + 5 + 2)
          | '\x7d' :: _ => some (1 + 3 + w.length + 1 + 5 + 1)
          | _ => none
        else none
      | _ => none
    else none
  | _ => none

/-- Tabular part of `_parse_table_env`: the text rendered from the first
tabular-like environment of the table body (empty when there is none). -/
def tableTabularText (text : Str) : Str :=
  match searchInfo tabularBeginP text 0 with
  | none => []
  | some (s, envName, k) =>
    let afterBegin := skipOptionalArg text (s + k)
    let afterSpec := (extractBraced text afterBegin).2
    let tabularContent := (findEnvEnd text afterSpec envName).1
    tabularToText tabularContent

/-- Trailing-notes part of `_parse_table_env`: text after the tabular
environment, with end-of-table markers stripped, cleaned, and kept as one
more `Table_caption` when longer than 5 characters. -/
def tableNotes (text : Str) : List Element :=
  match searchFrom endTabularP text 0 with
  | none => []
  | some (s, k) =>
    let notesRaw := text.drop (s + k)
    let notesRaw2 := substAll (withRep [] endTableMarkP) notesRaw
    let notes := pyStrip (cleanText notesRaw2)
    if !notes.isEmpty && 5 < notes.length then [Element.TableCaption notes]
    else []

/-- Embedding of `_parse_table_env(text)`: the elements appended for one
`table`/`table*` environment body, in the source's append order (table text
first, then captions, then trailing notes). -/
def parseTableEnv (text : Str) : List Element :=
  let captions := collectCaptions text
  let tableText := tableTabularText text
  (if !tableText.isEmpty then [Element.Table tableText] else [])
    ++ captions.map Element.TableCaption
    ++ tableNotes text

/-- Embedding of `_parse_figure_env(text)`: one `Figure_caption` per cleaned
non-empty caption of the figure body. -/
def parseFigureEnv (text : Str) : List Element :=
  (collectCaptions text).map Element.FigureCaption

/-!  Embedding of `_flush_text` and `_heading_label`
(latex.py lines 347-376). -/

/-- Loop of `re.split(r"\n{2,}", raw)`: split on maximal runs of at least two
newlines. -/
def splitBlankGo : Nat → Str → Str → List Str
  | _, acc, [] => [acc.reverse]
  | 0, acc, s => [acc.reverse ++ s]
  | fuel + 1, acc, c :: cs =>
    if c = '\n' then
      let run := (c :: cs).takeWhile (fun d => d = '\n')
      if 2 ≤ run.length then
        acc.reverse :: splitBlankGo fuel [] ((c :: cs).drop run.length)
      else splitBlankGo fuel (c :: acc) cs
    else splitBlankGo fuel (c :: acc) cs

/-- Split on blank lines (`re.split(r"\n{2,}", raw)`). -/
def splitBlank (s : Str) : List Str :=
  splitBlankGo (s.length + 1) [] s

/-- Embedding of `_flush_text(buf, elements)`: join the buffered fragments
with spaces, split on blank lines, clean each chunk, and emit it as a
`Paragraph` only when the cleaned text is longer than 10 characters. -/
def flushText (buf : List Str) : List Element :=
  if buf.isEmpty then []
  else
    let raw := List.intercalate (str " ") buf
    (splitBlank raw).filterMap fun chunk =>
      let cleaned := cleanText chunk
      if !cleaned.isEmpty && 10 < cleaned.length then
        some (Element.Paragraph cleaned)
      else none

/-- Embedding of `_heading_label(level, counters, in_appendix)`.  In appendix
mode the level-0 letter is `chr(ord("A") + counters[0] - 1)`. -/
def headingLabel (level : Nat) (counters : List Nat) (inApp : Bool) : Str :=
  let c0 := counters.getD 0 0
  let c1 := counters.getD 1 0
  let c2 := counters.getD 2 0
  if !inApp then
    if level = 0 then natDigits c0 ++ [ '.' ]
    else if level = 1 then natDigits c0 ++ [ '.' ] ++ natDigits c1
    else natDigits c0 ++ [ '.' ] ++ natDigits c1 ++ [ '.' ] ++ natDigits c2
  else
    let letter := Char.ofNat (65 + c0 - 1)
    if level = 0 then [letter, '.']
    else if level = 1 then letter :: '.' :: natDigits c1
    else letter :: '.' :: (natDigits c1 ++ [ '.' ] ++ natDigits c2)

/-!  Counter updates of the heading branch of `_parse_body`
(latex.py lines 442-444): `counters[level] += 1` followed by
`counters[i] = 0 for i in range(level + 1, 3)`.  A Python list index that is
out of range raises `IndexError`, modelled as `none`. -/

/-- Loop `for i in range(i0, 3): counters[i] = 0`, with `IndexError` as
`none`; the first argument is the remaining iteration count `3 - i`. -/
def zeroAboveGo : Nat → List Nat → Nat → Option (List Nat)
  | 0, counters, _ => some counters
  | n + 1, counters, i =>
    if i < counters.length then zeroAboveGo n (counters.set i 0) (i + 1)
    else none

/-- Zero the counters at indices `i`, …, `2`. -/
def zeroAbove (counters : List Nat) (i : Nat) : Option (List Nat) :=
  zeroAboveGo (3 - i) counters i

/-- Counter update of a heading at `level`: increment `counters[level]`, zero
all deeper levels; `IndexError` (too-deep heading) as `none`. -/
def bumpCounters (counters : List Nat) (level : Nat) : Option (List Nat) :=
  if h : level < counters.length then
    zeroAbove (counters.set level (counters.get ⟨level, h⟩ + 1)) (level + 1)
  else none

/-!  Embedding of the `_TOKEN` pattern (latex.py lines 288-294), compiled
with `re.IGNORECASE`:

    \\((?:sub)*section)\s*\*?   (group 1: section command name)
    \\appendix\b
    \\begin\s*\{(\w+\*?)\}      (group 2: environment name)
    \\maketitle\b

Alternatives are tried in this order at each position; the match data keeps
the full matched text (`m.group(0)`) and both captures. -/

/-- Match data of one `_TOKEN` match. -/
structure TokenM where
  g0 : Str
  g1 : Option Str
  g2 : Option Str
deriving DecidableEq, Repr

/-- The sub-pattern `(?:sub)*section`, case-insensitively.  The repetition is
deterministic because `section` and `sub` differ at their second character. -/
def subsSectionP (l : Str) : Option Nat :=
  if ciPrefix (str "section") l then some 7
  else
    match l with
    | a :: b :: c :: rest =>
      if toLowerCh a = 's' && toLowerCh b = 'u' && toLowerCh c = 'b' then
        match subsSectionP rest with
        | some k => some (3 + k)
        | none => none
      else none
    | _ => none

/-- Heading alternative `\\((?:sub)*section)\s*\*?`. -/
def headingAltP (l : Str) : Option (TokenM × Nat) :=
  match l with
  | '\\' :: rest =>
    match subsSectionP rest with
    | some k1 =>
      let t1 := rest.drop k1
      let w := t1.takeWhile isPySpace
      let st := match t1.drop w.length with | '*' :: _ => 1 | _ => 0
      let total := 1 + k1 + w.length + st
      some ({ g0 := l.take total, g1 := some (rest.take k1), g2 := none }, total)
    | none => none
  | _ => none

/-- Appendix alternative `\\appendix\b`. -/
def appendixAltP (l : Str) : Option (TokenM × Nat) :=
  match l with
  | '\\' :: rest =>
    if ciPrefix (str "appendix") rest then
      match wordBoundaryP (rest.drop 8) with
      | some _ => some ({ g0 := l.take 9, g1 := none, g2 := none }, 9)
      | none => none
    else none
  | _ => none

/-- Environment-begin alternative `\\begin\s*\{(\w+\*?)\}`. -/
def beginAltP (l : Str) : Option (TokenM × Nat) :=
  match l with
  | '\\' :: rest =>
    if ciPrefix (str "begin") rest then
      let t1 := rest.drop 5
      let w := t1.takeWhile isPySpace
      match t1.drop w.length with
      | '\x7b' :: t2 =>
        let name := t2.takeWhile isWordCh
        if name.length = 0 then none
        else
          match t2.drop name.length with
          | '*' :: '\x7d' :: _ =>
            let total := 1 + 5 + w.length + 1 + name.length + 2
            some ({ g0 := l.take total, g1 := none,
                    g2 := some (name ++ [ '*' ]) }, total)
          | '\x7d' :: _ =>
            let total := 1 + 5 + w.length + 1 + name.length + 1
            some ({ g0 := l.take total, g1 := none, g2 := some name }, total)
          | _ => none
      | _ => none
    else none
  | _ => none

/-- Maketitle alternative `\\maketitle\b`. -/
def maketitleAltP (l : Str) : Option (TokenM × Nat) :=
  match l with
  | '\\' :: rest =>
    if ciPrefix (str "maketitle") rest then
      match wordBoundaryP (rest.drop 9) with
      | some _ => some ({ g0 := l.take 10, g1 := none, g2 := none }, 10)
      | none => none
    else none
  | _ => none

/-- The `_TOKEN` matcher: the four alternatives in the source's order. -/
def tokenP (l : Str) : Option (TokenM × Nat) :=
  match headingAltP l with
  | some r => some r
  | none =>
    match appendixAltP l with
    | some r => some r
    | none =>
      match beginAltP l with
      | some r => some r
      | none => maketitleAltP l

/-- Python `cmd.count("sub")`: non-overlapping occurrences, left to right. -/
def countSub : Str → Nat
  | 's' :: 'u' :: 'b' :: rest => countSub rest + 1
  | _ :: rest => countSub rest
  | [] => 0

/-- Python `env_name_raw.rstrip("*")`: drop all trailing stars. -/
def rstripStar (s : Str) : Str :=
  (s.reverse.dropWhile (fun c => c = '*')).reverse

/-- Item-marker pass `\\item\s*` → `"\n\n"` (the `itemize` rewrite). -/
def itemCmdP (l : Str) : Option Nat :=
  match l with
  | '\\' :: rest =>
    if (str "item").isPrefixOf rest then
      some (1 + 4 + ((rest.drop 4).takeWhile isPySpace).length)
    else none
  | _ => none

/-- Embedding of `re.sub(r"\\item\s*", "\n\n", env_content)`. -/
def itemsRewrite (s : Str) : Str :=
  substAll (withRep (str "\n\n") itemCmdP) s

/-- The `_TRANSPARENT_ENVS` set (latex.py lines 297-314). -/
def transparentEnvs : List Str :=
  [str "document", str "center", str "flushleft", str "flushright",
   str "quote", str "quotation", str "verse", str "minipage", str "framed",
   str "mdframed", str "tcolorbox", str "columns", str "column", str "frame"]

/-- The `_SKIP_ENVS` set (latex.py lines 317-344). -/
def skipEnvs : List Str :=
  [str "tikzpicture", str "pgfpicture", str "lstlisting", str "verbatim",
   str "verbatim*", str "algorithm", str "algorithmic", str "comment",
   str "filecontents", str "thebibliography", str "equation", str "equation*",
   str "align", str "align*", str "eqnarray", str "eqnarray*", str "gather",
   str "gather*", str "multline", str "multline*", str "displaymath",
   str "array", str "pmatrix", str "bmatrix"]

/-- Errors a `_parse_body` run can raise: the `IndexError` of
`counters[level]` on a heading nested deeper than `subsubsection` (or of the
appendix reset on a short counter list), plus the fuel-exhaustion marker of
the embedding, which is never reached when the recursion fuel is at least
`text.length + 1`. -/
inductive PErr where
  | indexErr
  | fuelEx
deriving DecidableEq, Repr

/-- Decidable equality for `Except`, so that concrete parser runs can be
checked by `decide`. -/
instance exceptDecEq {ε α : Type} [DecidableEq ε] [DecidableEq α] :
    DecidableEq (Except ε α) := fun x y =>
  match x, y with
  | .ok a, .ok b =>
    match decEq a b with
    | isTrue h => isTrue (by rw [h])
    | isFalse h => isFalse (fun hc => h (by cases hc; rfl))
  | .error a, .error b =>
    match decEq a b with
    | isTrue h => isTrue (by rw [h])
    | isFalse h => isFalse (fun hc => h (by cases hc; rfl))
  | .ok _, .error _ => isFalse (fun hc => by cases hc)
  | .error _, .ok _ => isFalse (fun hc => by cases hc)

/-- Embedding of `_parse_body(text, elements, counters, in_appendix)`
(latex.py lines 379-495).  Returns the elements this call appends together
with the final counters; `counters` is threaded through descents and loop
iterations exactly as the shared Python list is, while `in_appendix` is a
plain boolean argument passed downward only, as in the source.  `buf` is the
`text_buf` prose buffer; `pos` the scan position; `fuel` bounds the recursion
depth (see the termination theorem). -/
def parseBodyGo (fuel : Nat) (text : Str) (pos : Nat) (buf : List Str)
    (counters : List Nat) (inApp : Bool) :
    Except PErr (List Element × List Nat) :=
  match fuel with
  | 0 => .error .fuelEx
  | fuel + 1 =>
    if pos < text.length then
      match searchInfo tokenP text pos with
      | none =>
        .ok (flushText (buf ++ [text.drop pos]), counters)
      | some (s, tm, k) =>
        let mEnd := s + k
        let buf2 := buf ++ [(text.drop pos).take (s - pos)]
        if tm.g0 = str "\\maketitle" then
          parseBodyGo fuel text mEnd buf2 counters inApp
        else if tm.g0 = str "\\appendix" then
          if 2 < counters.length then
            parseBodyGo fuel text mEnd buf2
              (((counters.set 0 0).set 1 0).set 2 0) true
          else .error .indexErr
        else
          match tm.g1 with
          | some g1 =>
            let cmd := toLowerStr g1
            let level := countSub cmd
            let afterCmd := skipOptionalArg text mEnd
            let hr := extractBraced text afterCmd
            let heading := pyStrip (cleanText hr.1)
            match bumpCounters counters level with
            | none => .error .indexErr
            | some counters2 =>
              let label := headingLabel level counters2 inApp
              match parseBodyGo fuel text hr.2 [] counters2 inApp with
              | .error e => .error e
              | .ok (rest, cfin) =>
                .ok (flushText buf2
                  ++ [Element.Headline (label ++ [ ' ' ] ++ heading)]
                  ++ rest, cfin)
          | none =>
            match tm.g2 with
            | none => parseBodyGo fuel text mEnd buf2 counters inApp
            | some envNameRaw =>
              let envName := rstripStar envNameRaw
              let afterBegin := skipOptionalArg text mEnd
              let fe := findEnvEnd text afterBegin envName
              if envName = str "abstract" then
                let cleaned := cleanText fe.1
                match parseBodyGo fuel text fe.2 [] counters inApp with
                | .error e => .error e
                | .ok (rest, cfin) =>
                  .ok (flushText buf2
                    ++ (if !cleaned.isEmpty then [Element.Abstract cleaned] else [])
                    ++ rest, cfin)
              else if envName = str "table" || envName = str "table*" then
                match parseBodyGo fuel text fe.2 [] counters inApp with
                | .error e => .error e
                | .ok (rest, cfin) =>
                  .ok (flushText buf2 ++ parseTableEnv fe.1 ++ rest, cfin)
              else if envName = str "figure" || envName = str "figure*" then
                match parseBodyGo fuel text fe.2 [] counters inApp with
                | .error e => .error e
                | .ok (rest, cfin) =>
                  .ok (flushText buf2 ++ parseFigureEnv fe.1 ++ rest, cfin)
              else if envName = str "itemize" || envName = str "enumerate"
                  || envName = str "description" then
                match parseBodyGo fuel (itemsRewrite fe.1) 0 [] counters inApp with
                | .error e => .error e
                | .ok (sub, c2) =>
                  match parseBodyGo fuel text fe.2 [] c2 inApp with
                  | .error e => .error e
                  | .ok (rest, cfin) =>
                    .ok (flushText buf2 ++ sub ++ rest, cfin)
              else if transparentEnvs.contains envName then
                match parseBodyGo fuel fe.1 0 [] counters inApp with
                | .error e => .error e
                | .ok (sub, c2) =>
                  match parseBodyGo fuel text fe.2 buf2 c2 inApp with
                  | .error e => .error e
                  | .ok (rest, cfin) => .ok (sub ++ rest, cfin)
              else if skipEnvs.contains envName then
                parseBodyGo fuel text fe.2 buf2 counters inApp
              else
                match parseBodyGo fuel fe.1 0 [] counters inApp with
                | .error e => .error e
                | .ok (sub, c2) =>
                  match parseBodyGo fuel text fe.2 buf2 c2 inApp with
                  | .error e => .error e
                  | .ok (rest, cfin) => .ok (sub ++ rest, cfin)
    else .ok (flushText buf, counters)

/-- One `_parse_body` call on a whole body text, with enough fuel for its
length (see the termination theorem for sufficiency). -/
def parseBody (text : Str) (counters : List Nat) (inApp : Bool) :
    Except PErr (List Element × List Nat) :=
  parseBodyGo (text.length + 1) text 0 [] counters inApp

/-!  Embedding of `extract.py`: the PDF layout reconstructor.  The PyMuPDF
page-block provider is modelled as data: a document is a list of pages, each
carrying its text blocks (type tag, vertical span, text — the fields
`b[6]`, `b[1]`, `b[3]`, `b[4]` used by the source) and the table rectangles
its best-effort detector reports (only their `y0`/`y1` are ever read).
Vertical coordinates are modelled as integers; the source compares floats,
and only the order of coordinates matters to it. -/

/-- One text/image block of a page. -/
structure Block where
  btype : Int
  y0 : Int
  y1 : Int
  btext : Str
deriving DecidableEq, Repr

/-- One page: blocks in provider order plus detected table rectangles. -/
structure PdfPage where
  blocks : List Block
  tableRects : List (Int × Int)
deriving DecidableEq, Repr

/-- A source document. -/
structure PdfDoc where
  pdfPages : List PdfPage
deriving DecidableEq, Repr

/-- Errors of `extract_text`: `FileNotFoundError` for a missing document and
`IndexError` for a page index outside `[0, pageCount)`; the error carries the
invalid index and the document length, as the Python message text does. -/
inductive ExtractErr where
  | notFound (path : Str)
  | outOfRange (idx : Int) (docLen : Nat)
deriving DecidableEq, Repr

/-- Embedding of `_join_lines(lines)`: join with hyphen-aware rejoining. -/
def joinLines (lines : List Str) : Str :=
  match lines with
  | [] => []
  | first :: rest =>
    rest.foldl
      (fun result line =>
        if result.getLastD ' ' = '-' then result.dropLast ++ line
        else result ++ [ ' ' ] ++ line)
      first

/-- The `_PAGE_NUMBER` pattern `^\d{1,4}$`: a bare 1-4 digit string. -/
def isPageNumber (t : Str) : Bool :=
  decide (1 ≤ t.length) && decide (t.length ≤ 4) && t.all isDigitCh

/-- Embedding of `_is_noise(text)`: empty, a bare page number, or at most 3
characters not ending in `.`, `!` or `?`. -/
def isNoise (text : Str) : Bool :=
  let t := pyStrip text
  if t.isEmpty then true
  else if isPageNumber t then true
  else if decide (t.length ≤ 3) && !((str ".!?").contains (t.getLastD ' ')) then
    true
  else false

/-- Embedding of `_in_any_rect(y0, y1, rects)`: the vertical band overlaps
some rectangle (`y1 > r.y0 and y0 < r.y1`). -/
def inAnyRect (y0 y1 : Int) (rects : List (Int × Int)) : Bool :=
  rects.any fun r => decide (r.1 < y1) && decide (y0 < r.2)

/-- Loop of `_remove_short_runs`: skip long paragraphs; at a short one take
the whole maximal short run, drop it when it has at least `_RUN_MIN = 5`
members, keep it otherwise, and continue after it.  The fuel starts above
the list length, which suffices since every step consumes at least one
element. -/
def removeShortRunsGo : Nat → List Str → List Str
  | _, [] => []
  | 0, ps => ps
  | fuel + 1, p :: rest =>
    if 60 ≤ p.length then p :: removeShortRunsGo fuel rest
    else
      let run := p :: rest.takeWhile (fun q => q.length < 60)
      let rest2 := rest.dropWhile (fun q => q.length < 60)
      if 5 ≤ run.length then removeShortRunsGo fuel rest2
      else run ++ removeShortRunsGo fuel rest2

/-- Embedding of `_remove_short_runs(paragraphs)` (extract.py lines 74-99). -/
def removeShortRuns (ps : List Str) : List Str :=
  removeShortRunsGo (ps.length + 1) ps

/-- Python `char.islower()` on ASCII text. -/
def isLowerCh (c : Char) : Bool :=
  'a' ≤ c && c ≤ 'z'

/-- Paragraph-accumulation loop of `_normalize_text`: blank lines and
below-threshold lines flush the current buffer.  The threshold test
`len(stripped) < typical_len * 0.6` is embedded exactly as the rational
comparison `10 * len < 6 * typical` (the source compares against a float
product, which differs from the exact product only by its final rounding). -/
def buildParagraphs (typicalLen : Nat) : List Str → List Str → List Str
  | [], current =>
    if current.isEmpty then [] else [joinLines current]
  | line :: rest, current =>
    let stripped := pyStrip line
    if stripped.isEmpty then
      if current.isEmpty then buildParagraphs typicalLen rest []
      else joinLines current :: buildParagraphs typicalLen rest []
    else
      let current2 := current ++ [stripped]
      if 10 * stripped.length < 6 * typicalLen then
        joinLines current2 :: buildParagraphs typicalLen rest []
      else buildParagraphs typicalLen rest current2

/-- Hyphen-rejoin pass of `_normalize_text`: merge a paragraph into its
predecessor when the predecessor ends in `-` and it starts lowercase. -/
def mergeHyphen (paragraphs : List Str) : List Str :=
  paragraphs.foldl
    (fun merged para =>
      match merged.getLast? with
      | some lastp =>
        if lastp.getLastD ' ' = '-' && !para.isEmpty
            && isLowerCh (para.headD ' ') then
          merged.dropLast ++ [lastp.dropLast ++ para]
        else merged ++ [para]
      | none => merged ++ [para])
    []

/-- Embedding of `_normalize_text(raw)` (extract.py lines 106-154). -/
def normalizeText (raw : Str) : Str :=
  let lines := splitSep (str "\n") raw
  let lengths :=
    (lines.filter fun l => 20 < (pyStrip l).length).map fun l => (pyStrip l).length
  if lengths.isEmpty then pyStrip raw
  else
    let sortedLens := lengths.insertionSort (· ≤ ·)
    let typicalLen := sortedLens.getD ((lengths.length * 3) / 4) 0
    let paragraphs := buildParagraphs typicalLen lines []
    let merged := mergeHyphen paragraphs
    let cleaned := merged.filter fun p => !isNoise p
    let cleaned2 := removeShortRuns cleaned
    List.intercalate (str "\n\n") cleaned2

/-- Block filter and concatenation for one page: image blocks and blocks
overlapping a detected table rectangle are discarded, the rest concatenated
in provider order. -/
def pageText (page : PdfPage) : Str :=
  (page.blocks.filterMap fun b =>
    if b.btype ≠ 0 then none
    else if inAnyRect b.y0 b.y1 page.tableRects then none
    else some b.btext).flatten

/-- Python `range(start, stop)` over integers. -/
def rangeInts (start stop : Int) : List Int :=
  (List.range (stop - start).toNat).map fun k => start + (k : Int)

/-- Page loop of `extract_text`: each index is bounds-checked before its page
is read; the first out-of-range index raises. -/
def extractPagesGo (doc : PdfDoc) : List Int → Except ExtractErr (List Str)
  | [] => .ok []
  | i :: rest =>
    if i < 0 || (doc.pdfPages.length : Int) ≤ i then
      .error (.outOfRange i doc.pdfPages.length)
    else
      let page := doc.pdfPages.getD i.toNat { blocks := [], tableRects := [] }
      match extractPagesGo doc rest with
      | .error e => .error e
      | .ok parts => .ok (pageText page :: parts)

/-- Embedding of `extract_text(pdf_path, pages)` (extract.py lines 161-223):
the filesystem and PDF reader are modelled as a map from paths to documents;
a missing path raises `FileNotFoundError`, page selection is the
`(start, stop)` tuple form (`None` selects all pages), and the selected page
texts are joined with newlines and normalised. -/
def extractText (fs : Str → Option PdfDoc) (path : Str)
    (pages : Option (Int × Int)) : Except ExtractErr Str :=
  match fs path with
  | none => .error (.notFound path)
  | some doc =>
    let pageRange :=
      match pages with
      | some (start, stop) => rangeInts start stop
      | none => rangeInts 0 doc.pdfPages.length
    match extractPagesGo doc pageRange with
    | .error e => .error e
    | .ok rawParts => .ok (normalizeText (List.intercalate (str "\n") rawParts))

/-!  Bounds on the scanning primitives: every match consumes at least one and
at most all remaining characters, whitespace skips move forward, and the
balanced scanners return positions at or after their input position.  These
facts drive the termination claim for the recursive body walker. -/

/-- The emission guard each element kind passes before the body walker
appends it: paragraphs are emitted only beyond 10 characters, abstracts,
tables and captions only when non-empty, headlines unconditionally, and the
walker never emits a title. -/
def elemGuard (e : Element) : Prop :=
  match e with
  | .Title _ => False
  | .Abstract s => s ≠ []
  | .Headline _ => True
  | .Paragraph p => 10 < p.length ∧ p ≠ []
  | .Table s => s ≠ []
  | .TableCaption s => s ≠ []
  | .FigureCaption s => s ≠ []

/-- Spec-side characterisation of "a matching close is found": the scan of
§4.2 "Balanced-delimiter extraction" — walk forward tracking nesting depth,
skipping the character immediately after any escape character — reaches a
closing brace at depth one.  Used only to state the graceful-degradation
claim about `_extract_braced`. -/
def hasMatchingCloseGo : Str → Nat → Bool
  | [], _ => false
  | ch :: rest, depth =>
    if ch = '\\' then
      match rest with
      | [] => false
      | _ :: rest2 => hasMatchingCloseGo rest2 depth
    else if ch = '\x7b' then hasMatchingCloseGo rest (depth + 1)
    else if ch = '\x7d' then
      if depth = 1 then true
      else hasMatchingCloseGo rest (depth - 1)
    else hasMatchingCloseGo rest depth

/-- Whether the balanced scan starting at `pos` finds a matching close. -/
def hasMatchingClose (text : Str) (pos : Nat) : Bool :=
  hasMatchingCloseGo (text.drop pos) 0

theorem litP_some {lit l : Str} {k : Nat} (h : litP lit l = some k) :
    k = lit.length ∧ lit.isPrefixOf l = true := by
  unfold litP at h
  by_cases hp : lit.isPrefixOf l
  · simp [hp] at h; exact ⟨h.symm, hp⟩
  · simp [hp] at h

theorem seqP_some {p q : Str → Option Nat} {l : Str} {k : Nat}
    (h : seqP p q l = some k) :
    ∃ k1 k2, p l = some k1 ∧ q (l.drop k1) = some k2 ∧ k = k1 + k2 := by
  unfold seqP at h
  cases hp : p l with
  | none => simp [hp] at h
  | some k1 =>
    cases hq : q (l.drop k1) with
    | none => simp [hp, hq] at h
    | some k2 =>
      simp [hp, hq] at h
      exact ⟨k1, k2, rfl, hq, h.symm⟩

theorem envTagP_pos {kw name l : Str} {k : Nat} (h : envTagP kw name l = some k) :
    1 ≤ k := by
  unfold envTagP at h
  obtain ⟨k1, k2, hp, _, hk⟩ := seqP_some h
  obtain ⟨h1, _⟩ := litP_some hp
  simp [h1] at hk
  omega

theorem searchFromGo_le {p : Str → Option Nat} {l : Str} {pos s k : Nat}
    (h : searchFromGo p l pos = some (s, k)) : pos ≤ s := by
  induction l generalizing pos with
  | nil => simp [searchFromGo] at h
  | cons c rest ih =>
    rw [searchFromGo] at h
    cases hp : p (c :: rest) with
    | some k' => rw [hp] at h; simp at h; omega
    | none => rw [hp] at h; have := ih h; omega

theorem searchFromGo_lt {p : Str → Option Nat} {l : Str} {pos s k : Nat}
    (h : searchFromGo p l pos = some (s, k)) : s < pos + l.length := by
  induction l generalizing pos with
  | nil => simp [searchFromGo] at h
  | cons c rest ih =>
    rw [searchFromGo] at h
    cases hp : p (c :: rest) with
    | some k' => rw [hp] at h; simp at h; simp [List.length_cons]; omega
    | none =>
      rw [hp] at h
      have := ih h
      simp [List.length_cons]
      omega

theorem searchFromGo_matches {p : Str → Option Nat} {l : Str} {pos s k : Nat}
    (h : searchFromGo p l pos = some (s, k)) : p (l.drop (s - pos)) = some k := by
  induction l generalizing pos with
  | nil => simp [searchFromGo] at h
  | cons c rest ih =>
    rw [searchFromGo] at h
    cases hp : p (c :: rest) with
    | some k' =>
      rw [hp] at h
      simp at h
      obtain ⟨h1, h2⟩ := h
      subst h1 h2
      simpa using hp
    | none =>
      rw [hp] at h
      have hle := searchFromGo_le h
      have := ih h
      have hs : s - pos = (s - (pos + 1)) + 1 := by omega
      rw [hs]
      simpa using this

theorem searchFrom_le {p : Str → Option Nat} {text : Str} {pos s k : Nat}
    (h : searchFrom p text pos = some (s, k)) : pos ≤ s :=
  searchFromGo_le h

theorem searchFrom_lt {p : Str → Option Nat} {text : Str} {pos s k : Nat}
    (h : searchFrom p text pos = some (s, k)) : s < text.length := by
  have := searchFromGo_lt h
  rw [List.length_drop] at this
  have hle : pos ≤ text.length := by
    by_contra hgt
    push_neg at hgt
    have hnil : text.drop pos = [] := List.drop_eq_nil_of_le (by omega)
    rw [searchFrom, hnil] at h
    simp [searchFromGo] at h
  omega

theorem searchFrom_matches {p : Str → Option Nat} {text : Str} {pos s k : Nat}
    (h : searchFrom p text pos = some (s, k)) : p (text.drop s) = some k := by
  have hle := searchFromGo_le (l := text.drop pos) h
  have hm := searchFromGo_matches (l := text.drop pos) h
  rw [List.drop_drop] at hm
  have : pos + (s - pos) = s := by omega
  rwa [this] at hm

/-!  Embedding of `_find_env_end` (latex.py lines 102-133): locate the
`\end{name}` matching the content that starts at `contentStart`, treating
further `\begin{name}` occurrences as increments of a depth counter.  The
loop's scan position strictly increases and never exceeds the text length, so
`text.length + 1` units of fuel always suffice; the fuel-exhausted branch
returns the value of the Python function's own unreachable final line. -/

theorem length_takeWhile_le {α : Type} (p : α → Bool) (l : List α) :
    (l.takeWhile p).length ≤ l.length := by
  induction l with
  | nil => simp
  | cons c cs ih =>
    rw [List.takeWhile]
    cases p c <;> simp <;> omega

theorem length_dropWhile_le {α : Type} (p : α → Bool) (l : List α) :
    (l.dropWhile p).length ≤ l.length := by
  induction l with
  | nil => simp
  | cons c cs ih =>
    rw [List.dropWhile]
    cases p c <;> simp <;> omega

theorem searchInfoGo_le {α : Type} {p : Str → Option (α × Nat)} {l : Str}
    {pos s k : Nat} {a : α} (h : searchInfoGo p l pos = some (s, a, k)) :
    pos ≤ s := by
  induction l generalizing pos with
  | nil => simp [searchInfoGo] at h
  | cons c rest ih =>
    rw [searchInfoGo] at h
    cases hp : p (c :: rest) with
    | some r => rw [hp] at h; simp at h; omega
    | none => rw [hp] at h; have := ih h; omega

theorem searchInfoGo_lt {α : Type} {p : Str → Option (α × Nat)} {l : Str}
    {pos s k : Nat} {a : α} (h : searchInfoGo p l pos = some (s, a, k)) :
    s < pos + l.length := by
  induction l generalizing pos with
  | nil => simp [searchInfoGo] at h
  | cons c rest ih =>
    rw [searchInfoGo] at h
    cases hp : p (c :: rest) with
    | some r => rw [hp] at h; simp at h; simp [List.length_cons]; omega
    | none =>
      rw [hp] at h
      have := ih h
      simp [List.length_cons]
      omega

theorem searchInfoGo_matches {α : Type} {p : Str → Option (α × Nat)} {l : Str}
    {pos s k : Nat} {a : α} (h : searchInfoGo p l pos = some (s, a, k)) :
    p (l.drop (s - pos)) = some (a, k) := by
  induction l generalizing pos with
  | nil => simp [searchInfoGo] at h
  | cons c rest ih =>
    rw [searchInfoGo] at h
    cases hp : p (c :: rest) with
    | some r =>
      rw [hp] at h
      simp at h
      obtain ⟨h1, h2⟩ := h
      subst h1
      rw [h2] at hp
      simpa using hp
    | none =>
      rw [hp] at h
      have hle := searchInfoGo_le h
      have := ih h
      have hs : s - pos = (s - (pos + 1)) + 1 := by omega
      rw [hs]
      simpa using this

theorem searchInfo_le {α : Type} {p : Str → Option (α × Nat)} {text : Str}
    {pos s k : Nat} {a : α} (h : searchInfo p text pos = some (s, a, k)) :
    pos ≤ s :=
  searchInfoGo_le h

theorem searchInfo_lt {α : Type} {p : Str → Option (α × Nat)} {text : Str}
    {pos s k : Nat} {a : α} (h : searchInfo p text pos = some (s, a, k)) :
    s < text.length := by
  have := searchInfoGo_lt h
  rw [List.length_drop] at this
  have hle : pos ≤ text.length := by
    by_contra hgt
    push_neg at hgt
    have hnil : text.drop pos = [] := List.drop_eq_nil_of_le (by omega)
    rw [searchInfo, hnil] at h
    simp [searchInfoGo] at h
  omega

theorem searchInfo_matches {α : Type} {p : Str → Option (α × Nat)} {text : Str}
    {pos s k : Nat} {a : α} (h : searchInfo p text pos = some (s, a, k)) :
    p (text.drop s) = some (a, k) := by
  have hle := searchInfoGo_le (l := text.drop pos) h
  have hm := searchInfoGo_matches (l := text.drop pos) h
  rw [List.drop_drop] at hm
  have : pos + (s - pos) = s := by omega
  rwa [this] at hm

theorem ciPrefix_length {lit l : Str} (h : ciPrefix lit l = true) :
    lit.length ≤ l.length := by
  induction lit generalizing l with
  | nil => simp
  | cons c cs ih =>
    cases l with
    | nil => simp [ciPrefix] at h
    | cons d ds =>
      rw [ciPrefix] at h
      simp at h
      have := ih h.2
      simp
      omega

theorem isPrefixOf_length {lit l : Str} (h : lit.isPrefixOf l = true) :
    lit.length ≤ l.length := by
  have : lit <+: l := by rwa [← List.isPrefixOf_iff_prefix]
  exact this.length_le

theorem subsSectionP_le (l : Str) : ∀ k : Nat, subsSectionP l = some k → k ≤ l.length := by
  induction l using subsSectionP.induct with
  | case1 t hci =>
    intro k h
    rw [subsSectionP.eq_def, if_pos hci] at h
    have hlen := ciPrefix_length hci
    simp [str] at hlen
    simp at h
    omega
  | case2 a b c rest hsub k0 hr hci ih =>
    intro k h
    rw [subsSectionP.eq_def, if_neg hci] at h
    simp only [hsub, if_true, hr] at h
    simp at h
    have := ih k0 hr
    simp [List.length_cons]
    omega
  | case3 a b c rest hsub hr hci ih =>
    intro k h
    rw [subsSectionP.eq_def, if_neg hci] at h
    simp only [hsub, if_true, hr] at h
    simp at h
  | case4 a b c rest hnsub hci =>
    intro k h
    rw [subsSectionP.eq_def, if_neg hci] at h
    simp only [Bool.not_eq_true] at hnsub
    simp only [hnsub, if_false] at h
    simp at h
  | case5 t hci hshape =>
    intro k h
    rw [subsSectionP.eq_def, if_neg hci] at h
    rcases t with _ | ⟨a, _ | ⟨b, _ | ⟨c, rest⟩⟩⟩
    · simp at h
    · simp at h
    · simp at h
    · exact (hshape a b c rest rfl).elim

theorem drop_cons_length {α : Type} {t : List α} {n : Nat} {x : α} {xs : List α}
    (h : t.drop n = x :: xs) : n + xs.length + 1 ≤ t.length := by
  have := congrArg List.length h
  simp [List.length_drop] at this
  omega

theorem headingAltP_bounds {l : Str} {tm : TokenM} {k : Nat}
    (h : headingAltP l = some (tm, k)) : 1 ≤ k ∧ k ≤ l.length := by
  rw [headingAltP.eq_def] at h
  split at h
  case _ rest =>
    cases hs : subsSectionP rest with
    | none => rw [hs] at h; simp at h
    | some k1 =>
      rw [hs] at h
      simp only [] at h
      have hk1 := subsSectionP_le rest k1 hs
      have hw := length_takeWhile_le isPySpace (rest.drop k1)
      rw [List.length_drop] at hw
      split at h
      case _ xs heq =>
        have hst := drop_cons_length heq
        rw [List.length_drop] at hst
        simp at h
        obtain ⟨-, h2⟩ := h
        simp [List.length_cons]
        omega
      case _ heq =>
        simp at h
        obtain ⟨-, h2⟩ := h
        simp [List.length_cons]
        omega
  case _ => simp at h

theorem appendixAltP_bounds {l : Str} {tm : TokenM} {k : Nat}
    (h : appendixAltP l = some (tm, k)) : 1 ≤ k ∧ k ≤ l.length := by
  rw [appendixAltP.eq_def] at h
  split at h
  case _ rest =>
    split at h
    case isTrue hci =>
      have := ciPrefix_length hci
      simp [str] at this
      split at h
      · simp at h
        obtain ⟨-, h2⟩ := h
        simp [List.length_cons]
        omega
      · simp at h
    case isFalse => simp at h
  case _ => simp at h

theorem beginAltP_bounds {l : Str} {tm : TokenM} {k : Nat}
    (h : beginAltP l = some (tm, k)) : 1 ≤ k ∧ k ≤ l.length := by
  rw [beginAltP.eq_def] at h
  split at h
  case _ rest =>
    split at h
    case isTrue hci =>
      have hb := ciPrefix_length hci
      simp [str] at hb
      have hw := length_takeWhile_le isPySpace (rest.drop 5)
      rw [List.length_drop] at hw
      simp only [] at h
      split at h
      case _ t2 heq =>
        have hbr := drop_cons_length heq
        rw [List.length_drop] at hbr
        have hname := length_takeWhile_le isWordCh t2
        split at h
        case isTrue => simp at h
        case isFalse hne =>
          split at h
          case _ xs heq2 =>
            have hstar := drop_cons_length heq2
            simp [List.length_cons] at hstar
            simp at h
            obtain ⟨-, h2⟩ := h
            simp [List.length_cons]
            omega
          case _ xs heq2 =>
            have hcl := drop_cons_length heq2
            simp [List.length_cons] at hcl
            simp at h
            obtain ⟨-, h2⟩ := h
            simp [List.length_cons]
            omega
          case _ => simp at h
      case _ => simp at h
    case isFalse => simp at h
  case _ => simp at h

theorem maketitleAltP_bounds {l : Str} {tm : TokenM} {k : Nat}
    (h : maketitleAltP l = some (tm, k)) : 1 ≤ k ∧ k ≤ l.length := by
  rw [maketitleAltP.eq_def] at h
  split at h
  case _ rest =>
    split at h
    case isTrue hci =>
      have := ciPrefix_length hci
      simp [str] at this
      split at h
      · simp at h
        obtain ⟨-, h2⟩ := h
        simp [List.length_cons]
        omega
      · simp at h
    case isFalse => simp at h
  case _ => simp at h

theorem tokenP_bounds {l : Str} {tm : TokenM} {k : Nat}
    (h : tokenP l = some (tm, k)) : 1 ≤ k ∧ k ≤ l.length := by
  rw [tokenP] at h
  cases h1 : headingAltP l with
  | some r => rw [h1] at h; cases h; exact headingAltP_bounds h1
  | none =>
    rw [h1] at h
    cases h2 : appendixAltP l with
    | some r => rw [h2] at h; cases h; exact appendixAltP_bounds h2
    | none =>
      rw [h2] at h
      cases h3 : beginAltP l with
      | some r => rw [h3] at h; cases h; exact beginAltP_bounds h3
      | none => rw [h3] at h; exact maketitleAltP_bounds h

theorem skipWsGo_ge (l : Str) : ∀ i : Nat, i ≤ skipWsGo l i := by
  induction l with
  | nil => intro i; simp [skipWsGo]
  | cons c rest ih =>
    intro i
    rw [skipWsGo]
    split
    · have := ih (i + 1); omega
    · omega

theorem skipWsGo_le (l : Str) : ∀ i : Nat, skipWsGo l i ≤ i + l.length := by
  induction l with
  | nil => intro i; simp [skipWsGo]
  | cons c rest ih =>
    intro i
    rw [skipWsGo]
    split
    · have := ih (i + 1); simp [List.length_cons]; omega
    · simp [List.length_cons]

theorem skipToRBGo_ge (l : Str) : ∀ i : Nat, i ≤ skipToRBGo l i := by
  induction l with
  | nil => intro i; simp [skipToRBGo]
  | cons c rest ih =>
    intro i
    rw [skipToRBGo]
    split
    · omega
    · have := ih (i + 1); omega

theorem skipOptionalArg_ge (text : Str) (pos : Nat) :
    pos ≤ skipOptionalArg text pos := by
  rw [skipOptionalArg]
  have h1 : pos ≤ skipWsSTN text pos := skipWsGo_ge (text.drop pos) pos
  have h2 : skipWsSTN text pos ≤ skipToRBracket text (skipWsSTN text pos) :=
    skipToRBGo_ge _ _
  split
  · simp only []
    split
    · omega
    · omega
  · omega

theorem skipOptionalArg_le (text : Str) (pos : Nat) (h : pos ≤ text.length) :
    skipOptionalArg text pos ≤ text.length := by
  rw [skipOptionalArg]
  split
  · simp only []
    split
    case isTrue hlt => omega
    case isFalse => omega
  · omega

theorem extractBracedGo_snd (text : Str) (pos : Nat) :
    ∀ (suffix : Str) (i depth : Nat),
      (extractBracedGo text pos suffix i depth).2 = text.length
      ∨ i < (extractBracedGo text pos suffix i depth).2 := by
  intro suffix i depth
  induction suffix, i, depth using extractBracedGo.induct text pos with
  | case1 i depth => left; rfl
  | case2 i depth => left; simp [extractBracedGo]
  | case3 i depth head rest2 ih =>
    rw [extractBracedGo.eq_def]
    simp only [ite_true]
    rcases ih with h | h
    · left; exact h
    · right; omega
  | case4 rest i depth hne ih =>
    rw [extractBracedGo.eq_def]
    simp only [if_neg hne, ite_true, if_pos rfl]
    rcases ih with h | h
    · left; exact h
    · right; omega
  | case5 rest i h1 h2 =>
    rw [extractBracedGo.eq_def]
    simp only [if_neg h1, if_neg h2, ite_true, if_pos rfl]
    right
    simp
  | case6 rest i depth hdep h1 h2 ih =>
    rw [extractBracedGo.eq_def]
    simp only [if_neg h1, if_neg h2, ite_true, if_pos rfl, if_neg hdep]
    rcases ih with h | h
    · left; exact h
    · right; omega
  | case7 ch rest i depth h1 h2 h3 ih =>
    rw [extractBracedGo.eq_def]
    simp only [if_neg h1, if_neg h2, if_neg h3, ite_true]
    rcases ih with h | h
    · left; exact h
    · right; omega

theorem extractBraced_snd_ge (text : Str) (pos : Nat) :
    pos ≤ (extractBraced text pos).2 := by
  rw [extractBraced]
  split
  case _ c rest heq =>
    have hlt : pos < text.length := by
      have := congrArg List.length heq
      simp [List.length_drop] at this
      omega
    rcases extractBracedGo_snd text pos (text.drop pos) pos 0 with h | h
    · omega
    · omega
  case _ => simp

theorem findEnvEndLoop_snd_ge {text : Str} {s : Nat} {name : Str}
    (hs : s ≤ text.length) :
    ∀ (fuel depth scan : Nat), s ≤ scan →
      s ≤ (findEnvEndLoop text s name fuel depth scan).2 := by
  intro fuel
  induction fuel with
  | zero => intro depth scan _; rw [findEnvEndLoop]; exact hs
  | succ f ih =>
    intro depth scan hscan
    rw [findEnvEndLoop]
    cases hne : searchFrom (envTagP (str "end") name) text scan with
    | none => exact hs
    | some r =>
      obtain ⟨neS, neK⟩ := r
      have hneS := searchFrom_le hne
      simp only []
      cases hnb : searchFrom (envTagP (str "begin") name) text scan with
      | some rb =>
        obtain ⟨nbS, nbK⟩ := rb
        have hnbS := searchFrom_le hnb
        simp only []
        split
        · exact ih (depth + 1) (nbS + nbK) (by omega)
        · split
          · simp only []; omega
          · exact ih (depth - 1) (neS + neK) (by omega)
      | none =>
        simp only []
        split
        · simp only []; omega
        · exact ih (depth - 1) (neS + neK) (by omega)

theorem findEnvEndLoop_fst_len {text : Str} {s : Nat} {name : Str} :
    ∀ (fuel depth scan : Nat),
      (findEnvEndLoop text s name fuel depth scan).1.length ≤ text.length - s := by
  intro fuel
  induction fuel with
  | zero =>
    intro depth scan
    rw [findEnvEndLoop]
    simp [List.length_drop]
  | succ f ih =>
    intro depth scan
    rw [findEnvEndLoop]
    cases hne : searchFrom (envTagP (str "end") name) text scan with
    | none => simp [List.length_drop]
    | some r =>
      obtain ⟨neS, neK⟩ := r
      simp only []
      cases hnb : searchFrom (envTagP (str "begin") name) text scan with
      | some rb =>
        obtain ⟨nbS, nbK⟩ := rb
        simp only []
        split
        · exact ih (depth + 1) (nbS + nbK)
        · split
          · simp only []
            have h1 := length_takeWhile_le (fun _ => true) (text.drop s)
            have : ((text.drop s).take (neS - s)).length ≤ (text.drop s).length :=
              (List.length_take ..).trans_le (by simp)
            rw [List.length_drop] at this
            exact this
          · exact ih (depth - 1) (neS + neK)
      | none =>
        simp only []
        split
        · simp only []
          have : ((text.drop s).take (neS - s)).length ≤ (text.drop s).length :=
            (List.length_take ..).trans_le (by simp)
          rw [List.length_drop] at this
          exact this
        · exact ih (depth - 1) (neS + neK)

theorem findEnvEnd_snd_ge {text : Str} {s : Nat} {name : Str}
    (hs : s ≤ text.length) : s ≤ (findEnvEnd text s name).2 :=
  findEnvEndLoop_snd_ge hs (text.length + 1) 1 s (Nat.le_refl s)

theorem findEnvEnd_fst_len (text : Str) (s : Nat) (name : Str) :
    (findEnvEnd text s name).1.length ≤ text.length - s :=
  findEnvEndLoop_fst_len (text.length + 1) 1 s

/-!  Non-lengthening of substitution passes whose replacements are no longer
than what they consume; this bounds the `itemize` rewrite. -/

theorem substAllGo_length_le {p : Str → Option (Str × Nat)}
    (hp : ∀ l r k, p l = some (r, k) → r.length ≤ k ∧ 1 ≤ k ∧ k ≤ l.length) :
    ∀ (fuel : Nat) (s : Str), s.length ≤ fuel →
      (substAllGo p fuel s).length ≤ s.length := by
  intro fuel
  induction fuel with
  | zero =>
    intro s hlen
    cases s with
    | nil => simp [substAllGo]
    | cons c cs => simp at hlen
  | succ f ih =>
    intro s hlen
    cases s with
    | nil => simp [substAllGo]
    | cons c cs =>
      rw [substAllGo]
      cases hm : p (c :: cs) with
      | none =>
        have := ih cs (by simp at hlen; omega)
        simp [List.length_cons]
        omega
      | some r =>
        obtain ⟨rep, k⟩ := r
        obtain ⟨hr1, hr2, hr3⟩ := hp _ _ _ hm
        simp only []
        have hdl : (cs.drop (k - 1)).length = cs.length - (k - 1) := List.length_drop ..
        have := ih (cs.drop (k - 1)) (by simp at hlen; omega)
        simp [List.length_append, List.length_cons]
        simp [List.length_cons] at hr3
        omega

theorem itemCmdP_spec :
    ∀ l r k, withRep (str "\n\n") itemCmdP l = some (r, k) →
      r.length ≤ k ∧ 1 ≤ k ∧ k ≤ l.length := by
  intro l r k h
  rw [withRep] at h
  cases hm : itemCmdP l with
  | none => rw [hm] at h; simp at h
  | some k0 =>
    rw [hm] at h
    simp at h
    obtain ⟨hr, hk⟩ := h
    subst hr hk
    rw [itemCmdP.eq_def] at hm
    split at hm
    case _ rest =>
      split at hm
      case isTrue hpre =>
        have hp4 : 4 ≤ rest.length := by
          have := isPrefixOf_length hpre
          simpa [str] using this
        have hw := length_takeWhile_le isPySpace (rest.drop 4)
        rw [List.length_drop] at hw
        simp at hm
        simp [str, List.length_cons]
        omega
      case isFalse => simp at hm
    case _ => simp at hm

theorem itemsRewrite_le (s : Str) : (itemsRewrite s).length ≤ s.length :=
  substAllGo_length_le itemCmdP_spec s.length s (Nat.le_refl _)

/-- Fuel sufficiency for the body walker: a call scanning from `pos` needs
less fuel than `text.length - pos + 1`, because every loop iteration advances
the scan position and every recursive descent receives a strictly shorter
text.  This is the formal content of the walker's termination. -/
theorem parseBodyGo_no_fuelEx :
    ∀ (fuel : Nat) (text : Str) (pos : Nat) (buf : List Str)
      (c : List Nat) (a : Bool), text.length - pos < fuel →
      parseBodyGo fuel text pos buf c a ≠ Except.error PErr.fuelEx := by
  intro fuel
  induction fuel with
  | zero => intro text pos buf c a hf; exact absurd hf (by omega)
  | succ f ih =>
    intro text pos buf c a hf hcon
    rw [parseBodyGo] at hcon
    split at hcon
    case isFalse => simp at hcon
    case isTrue hlt =>
      revert hcon
      cases hsi : searchInfo tokenP text pos with
      | none => intro hcon; simp at hcon
      | some r =>
        obtain ⟨s, tm, k⟩ := r
        intro hcon
        simp only [] at hcon
        have hsle : pos ≤ s := searchInfo_le hsi
        have hslt : s < text.length := searchInfo_lt hsi
        have htok := tokenP_bounds (searchInfo_matches hsi)
        rw [List.length_drop] at htok
        have hmEnd : pos + 1 ≤ s + k ∧ s + k ≤ text.length := by omega
        have hskip1 := skipOptionalArg_ge text (s + k)
        have hskip2 := skipOptionalArg_le text (s + k) (by omega)
        split at hcon
        -- maketitle
        · exact ih text (s + k) _ c a (by omega) hcon
        · split at hcon
          -- appendix
          · split at hcon
            · exact ih text (s + k) _ _ true (by omega) hcon
            · simp at hcon
          · revert hcon
            cases hg1 : tm.g1 with
            | some g1 =>
              intro hcon
              simp only [] at hcon
              have hbr := extractBraced_snd_ge text (skipOptionalArg text (s + k))
              split at hcon
              · simp at hcon
              · split at hcon
                · -- propagated error from the continuation
                  rename_i e heq
                  cases hcon
                  exact ih text _ [] _ a (by omega) heq
                · simp at hcon
            | none =>
              intro hcon
              revert hcon
              cases hg2 : tm.g2 with
              | none =>
                intro hcon
                exact ih text (s + k) _ c a (by omega) hcon
              | some envNameRaw =>
                intro hcon
                simp only [] at hcon
                have hfe1 := findEnvEnd_fst_len text (skipOptionalArg text (s + k))
                  (rstripStar envNameRaw)
                have hfe2 : skipOptionalArg text (s + k) ≤
                    (findEnvEnd text (skipOptionalArg text (s + k))
                      (rstripStar envNameRaw)).2 :=
                  findEnvEnd_snd_ge (by omega)
                split at hcon
                -- abstract
                · split at hcon
                  · rename_i e heq
                    cases hcon
                    exact ih text _ [] c a (by omega) heq
                  · simp at hcon
                · split at hcon
                  -- table
                  · split at hcon
                    · rename_i e heq
                      cases hcon
                      exact ih text _ [] c a (by omega) heq
                    · simp at hcon
                  · split at hcon
                    -- figure
                    · split at hcon
                      · rename_i e heq
                        cases hcon
                        exact ih text _ [] c a (by omega) heq
                      · simp at hcon
                    · split at hcon
                      -- itemize
                      · have hit := itemsRewrite_le
                          (findEnvEnd text (skipOptionalArg text (s + k))
                            (rstripStar envNameRaw)).1
                        split at hcon
                        · rename_i e heq
                          cases hcon
                          exact ih _ 0 [] c a (by omega) heq
                        · split at hcon
                          · rename_i e heq
                            cases hcon
                            exact ih text _ [] _ a (by omega) heq
                          · simp at hcon
                      · split at hcon
                        -- transparent
                        · split at hcon
                          · rename_i e heq
                            cases hcon
                            exact ih _ 0 [] c a (by omega) heq
                          · split at hcon
                            · rename_i e heq
                              cases hcon
                              exact ih text _ _ _ a (by omega) heq
                            · simp at hcon
                        · split at hcon
                          -- skip environments
                          · exact ih text _ _ c a (by omega) hcon
                          -- unknown environments (transparent)
                          · split at hcon
                            · rename_i e heq
                              cases hcon
                              exact ih _ 0 [] c a (by omega) heq
                            · split at hcon
                              · rename_i e heq
                                cases hcon
                                exact ih text _ _ _ a (by omega) heq
                              · simp at hcon

theorem flushText_mem {buf : List Str} {e : Element} (h : e ∈ flushText buf) :
    ∃ p, e = Element.Paragraph p ∧ 10 < p.length ∧ p ≠ [] := by
  rw [flushText] at h
  split at h
  · simp at h
  · rw [List.mem_filterMap] at h
    obtain ⟨chunk, -, hf⟩ := h
    revert hf
    simp only []
    split
    case isTrue hcond =>
      intro hf
      simp at hf
      simp at hcond
      exact ⟨cleanText chunk, hf.symm, hcond.2, hcond.1⟩
    case isFalse => intro hf; simp at hf

theorem collectCaptionsGo_mem {text : Str} :
    ∀ {fuel pos : Nat} {cap : Str}, cap ∈ collectCaptionsGo text fuel pos →
      cap ≠ [] := by
  intro fuel
  induction fuel with
  | zero => intro pos cap h; simp [collectCaptionsGo] at h
  | succ f ih =>
    intro pos cap h
    rw [collectCaptionsGo] at h
    split at h
    · revert h
      cases hm : captionHeadP (text.drop pos) with
      | none => intro h; exact ih h
      | some k =>
        intro h
        simp only [] at h
        generalize hcap :
          pyStrip (cleanText (extractBraced text (pos + k - 1)).1) = cap0 at h
        split at h
        · exact ih h
        case isFalse hne =>
          rcases List.mem_cons.mp h with heq | hmem
          · subst heq
            intro hnil
            rw [hnil] at hne
            simp at hne
          · exact ih hmem
    · simp at h

theorem tableNotes_mem {text : Str} {e : Element} (h : e ∈ tableNotes text) :
    ∃ s, e = Element.TableCaption s ∧ 5 < s.length := by
  rw [tableNotes] at h
  split at h
  · simp at h
  case _ s k heq =>
    simp only [] at h
    generalize hnotes :
      pyStrip (cleanText (substAll (withRep [] endTableMarkP)
        (text.drop (s + k)))) = notes0 at h
    split at h
    case isTrue hcond =>
      rcases List.mem_singleton.mp h with heq2
      subst heq2
      simp at hcond
      exact ⟨_, rfl, hcond.2⟩
    case isFalse => simp at h

theorem parseTableEnv_mem {text : Str} {e : Element}
    (h : e ∈ parseTableEnv text) :
    (∃ s, e = Element.Table s ∧ s ≠ []) ∨
    (∃ s, e = Element.TableCaption s ∧ s ≠ []) := by
  rw [parseTableEnv] at h
  simp only [List.append_assoc, List.mem_append] at h
  rcases h with h | h | h
  · left
    revert h
    split
    case isTrue hcond =>
      intro h
      rcases List.mem_singleton.mp h with heq
      subst heq
      simp at hcond
      exact ⟨_, rfl, hcond⟩
    case isFalse => intro h; simp at h
  · right
    rw [List.mem_map] at h
    obtain ⟨cap, hmem, heq⟩ := h
    exact ⟨cap, heq.symm, collectCaptionsGo_mem hmem⟩
  · right
    obtain ⟨s, heq, hlen⟩ := tableNotes_mem h
    refine ⟨s, heq, ?_⟩
    intro hnil
    rw [hnil] at hlen
    simp at hlen

theorem parseFigureEnv_mem {text : Str} {e : Element}
    (h : e ∈ parseFigureEnv text) :
    ∃ s, e = Element.FigureCaption s ∧ s ≠ [] := by
  rw [parseFigureEnv, List.mem_map] at h
  obtain ⟨cap, hmem, heq⟩ := h
  exact ⟨cap, heq.symm, collectCaptionsGo_mem hmem⟩

/-- Emission guards of the body walker: in any successful parse, every
emitted paragraph is longer than 10 characters, every abstract, table and
caption is non-empty, headlines carry no filter, and no title is emitted. -/
theorem parseBodyGo_elem_shape :
    ∀ (fuel : Nat) (text : Str) (pos : Nat) (buf : List Str)
      (c : List Nat) (a : Bool) (r : List Element × List Nat),
      parseBodyGo fuel text pos buf c a = .ok r →
      ∀ e ∈ r.1, elemGuard e := by
  intro fuel
  induction fuel with
  | zero =>
    intro text pos buf c a r h
    rw [parseBodyGo] at h
    simp at h
  | succ f ih =>
    intro text pos buf c a r h e he
    rw [parseBodyGo] at h
    split at h
    case isFalse =>
      cases h
      obtain ⟨p, hp, h10, hne⟩ := flushText_mem he
      subst hp
      exact ⟨h10, hne⟩
    case isTrue hlt =>
      revert h
      cases hsi : searchInfo tokenP text pos with
      | none =>
        intro h
        cases h
        obtain ⟨p, hp, h10, hne⟩ := flushText_mem he
        subst hp
        exact ⟨h10, hne⟩
      | some rr =>
        obtain ⟨s, tm, k⟩ := rr
        intro h
        simp only [] at h
        split at h
        · exact ih _ _ _ _ _ _ h e he
        · split at h
          · split at h
            · exact ih _ _ _ _ _ _ h e he
            · simp at h
          · revert h
            cases hg1 : tm.g1 with
            | some g1 =>
              intro h
              simp only [] at h
              split at h
              · simp at h
              · split at h
                · simp at h
                · rename_i rest cfin heq
                  cases h
                  simp only [List.append_assoc, List.mem_append,
                    List.mem_cons, List.mem_singleton] at he
                  rcases he with hf | he1 | hrest
                  · obtain ⟨p, hp, h10, hne⟩ := flushText_mem hf
                    subst hp
                    exact ⟨h10, hne⟩
                  · rcases he1 with he1 | he1
                    · subst he1; trivial
                    · simp at he1
                  · exact ih _ _ _ _ _ _ heq e hrest
            | none =>
              intro h
              revert h
              cases hg2 : tm.g2 with
              | none =>
                intro h
                exact ih _ _ _ _ _ _ h e he
              | some envNameRaw =>
                intro h
                simp only [] at h
                split at h
                -- abstract
                · split at h
                  · simp at h
                  · rename_i rest cfin heq
                    cases h
                    simp only [List.append_assoc, List.mem_append] at he
                    rcases he with hf | he1 | hrest
                    · obtain ⟨p, hp, h10, hne⟩ := flushText_mem hf
                      subst hp
                      exact ⟨h10, hne⟩
                    · revert he1
                      split
                      case isTrue hcond =>
                        intro he1
                        rcases List.mem_singleton.mp he1 with heq2
                        subst heq2
                        simp at hcond
                        exact hcond
                      case isFalse => intro he1; simp at he1
                    · exact ih _ _ _ _ _ _ heq e hrest
                · split at h
                  -- table
                  · split at h
                    · simp at h
                    · rename_i rest cfin heq
                      cases h
                      simp only [List.append_assoc, List.mem_append] at he
                      rcases he with hf | he1 | hrest
                      · obtain ⟨p, hp, h10, hne⟩ := flushText_mem hf
                        subst hp
                        exact ⟨h10, hne⟩
                      · rcases parseTableEnv_mem he1 with ⟨s2, hs2, hne⟩ | ⟨s2, hs2, hne⟩
                        · subst hs2; exact hne
                        · subst hs2; exact hne
                      · exact ih _ _ _ _ _ _ heq e hrest
                  · split at h
                    -- figure
                    · split at h
                      · simp at h
                      · rename_i rest cfin heq
                        cases h
                        simp only [List.append_assoc, List.mem_append] at he
                        rcases he with hf | he1 | hrest
                        · obtain ⟨p, hp, h10, hne⟩ := flushText_mem hf
                          subst hp
                          exact ⟨h10, hne⟩
                        · obtain ⟨s2, hs2, hne⟩ := parseFigureEnv_mem he1
                          subst hs2; exact hne
                        · exact ih _ _ _ _ _ _ heq e hrest
                    · split at h
                      -- itemize
                      · split at h
                        · simp at h
                        · rename_i sub c2 heqs
                          split at h
                          · simp at h
                          · rename_i rest cfin heq
                            cases h
                            simp only [List.append_assoc, List.mem_append] at he
                            rcases he with hf | hsub | hrest
                            · obtain ⟨p, hp, h10, hne⟩ := flushText_mem hf
                              subst hp
                              exact ⟨h10, hne⟩
                            · exact ih _ _ _ _ _ _ heqs e hsub
                            · exact ih _ _ _ _ _ _ heq e hrest
                      · split at h
                        -- transparent
                        · split at h
                          · simp at h
                          · rename_i sub c2 heqs
                            split at h
                            · simp at h
                            · rename_i rest cfin heq
                              cases h
                              simp only [List.mem_append] at he
                              rcases he with hsub | hrest
                              · exact ih _ _ _ _ _ _ heqs e hsub
                              · exact ih _ _ _ _ _ _ heq e hrest
                        · split at h
                          -- skip environments
                          · exact ih _ _ _ _ _ _ h e he
                          -- unknown environments
                          · split at h
                            · simp at h
                            · rename_i sub c2 heqs
                              split at h
                              · simp at h
                              · rename_i rest cfin heq
                                cases h
                                simp only [List.mem_append] at he
                                rcases he with hsub | hrest
                                · exact ih _ _ _ _ _ _ heqs e hsub
                                · exact ih _ _ _ _ _ _ heq e hrest

/-- Appendix-mode persistence: a walker invocation running with
`in_appendix = true` (and every descent it makes, which all inherit the flag)
emits only headlines whose label was formatted in appendix (letter) mode. -/
theorem parseBodyGo_appendix_headlines :
    ∀ (fuel : Nat) (text : Str) (pos : Nat) (buf : List Str)
      (c : List Nat) (r : List Element × List Nat),
      parseBodyGo fuel text pos buf c true = .ok r →
      ∀ t, Element.Headline t ∈ r.1 →
        ∃ lvl cs hd, t = headingLabel lvl cs true ++ [ ' ' ] ++ hd := by
  intro fuel
  induction fuel with
  | zero =>
    intro text pos buf c r h
    rw [parseBodyGo] at h
    simp at h
  | succ f ih =>
    intro text pos buf c r h t he
    rw [parseBodyGo] at h
    split at h
    case isFalse =>
      cases h
      obtain ⟨p, hp, -, -⟩ := flushText_mem he
      simp at hp
    case isTrue hlt =>
      revert h
      cases hsi : searchInfo tokenP text pos with
      | none =>
        intro h
        cases h
        obtain ⟨p, hp, -, -⟩ := flushText_mem he
        simp at hp
      | some rr =>
        obtain ⟨s, tm, k⟩ := rr
        intro h
        simp only [] at h
        split at h
        · exact ih _ _ _ _ _ h t he
        · split at h
          · split at h
            · exact ih _ _ _ _ _ h t he
            · simp at h
          · revert h
            cases hg1 : tm.g1 with
            | some g1 =>
              intro h
              simp only [] at h
              split at h
              · simp at h
              · rename_i counters2 hbump
                split at h
                · simp at h
                · rename_i rest cfin heq
                  cases h
                  simp only [List.append_assoc, List.mem_append,
                    List.mem_cons] at he
                  rcases he with hf | he1 | hrest
                  · obtain ⟨p, hp, -, -⟩ := flushText_mem hf
                    simp at hp
                  · rcases he1 with he1 | he1
                    · injection he1 with he1
                      exact ⟨countSub (toLowerStr g1), counters2,
                        pyStrip (cleanText (extractBraced text
                          (skipOptionalArg text (s + k))).1),
                        by rw [he1]; simp⟩
                    · simp at he1
                  · exact ih _ _ _ _ _ heq t hrest
            | none =>
              intro h
              revert h
              cases hg2 : tm.g2 with
              | none =>
                intro h
                exact ih _ _ _ _ _ h t he
              | some envNameRaw =>
                intro h
                simp only [] at h
                split at h
                -- abstract
                · split at h
                  · simp at h
                  · rename_i rest cfin heq
                    cases h
                    simp only [List.append_assoc, List.mem_append] at he
                    rcases he with hf | he1 | hrest
                    · obtain ⟨p, hp, -, -⟩ := flushText_mem hf
                      simp at hp
                    · revert he1
                      split
                      · intro he1
                        rcases List.mem_singleton.mp he1 with heq2
                        simp at heq2
                      · intro he1; simp at he1
                    · exact ih _ _ _ _ _ heq t hrest
                · split at h
                  -- table
                  · split at h
                    · simp at h
                    · rename_i rest cfin heq
                      cases h
                      simp only [List.append_assoc, List.mem_append] at he
                      rcases he with hf | he1 | hrest
                      · obtain ⟨p, hp, -, -⟩ := flushText_mem hf
                        simp at hp
                      · rcases parseTableEnv_mem he1 with ⟨s2, hs2, -⟩ | ⟨s2, hs2, -⟩
                        · simp at hs2
                        · simp at hs2
                      · exact ih _ _ _ _ _ heq t hrest
                  · split at h
                    -- figure
                    · split at h
                      · simp at h
                      · rename_i rest cfin heq
                        cases h
                        simp only [List.append_assoc, List.mem_append] at he
                        rcases he with hf | he1 | hrest
                        · obtain ⟨p, hp, -, -⟩ := flushText_mem hf
                          simp at hp
                        · obtain ⟨s2, hs2, -⟩ := parseFigureEnv_mem he1
                          simp at hs2
                        · exact ih _ _ _ _ _ heq t hrest
                    · split at h
                      -- itemize
                      · split at h
                        · simp at h
                        · rename_i sub c2 heqs
                          split at h
                          · simp at h
                          · rename_i rest cfin heq
                            cases h
                            simp only [List.append_assoc, List.mem_append] at he
                            rcases he with hf | hsub | hrest
                            · obtain ⟨p, hp, -, -⟩ := flushText_mem hf
                              simp at hp
                            · exact ih _ _ _ _ _ heqs t hsub
                            · exact ih _ _ _ _ _ heq t hrest
                      · split at h
                        -- transparent
                        · split at h
                          · simp at h
                          · rename_i sub c2 heqs
                            split at h
                            · simp at h
                            · rename_i rest cfin heq
                              cases h
                              simp only [List.mem_append] at he
                              rcases he with hsub | hrest
                              · exact ih _ _ _ _ _ heqs t hsub
                              · exact ih _ _ _ _ _ heq t hrest
                        · split at h
                          -- skip environments
                          · exact ih _ _ _ _ _ h t he
                          -- unknown environments
                          · split at h
                            · simp at h
                            · rename_i sub c2 heqs
                              split at h
                              · simp at h
                              · rename_i rest cfin heq
                                cases h
                                simp only [List.mem_append] at he
                                rcases he with hsub | hrest
                                · exact ih _ _ _ _ _ heqs t hsub
                                · exact ih _ _ _ _ _ heq t hrest

/-!  Facts about `_remove_short_runs`: fuel irrelevance, a one-step
unfolding, and how the scan decomposes over maximal short runs. -/

theorem removeShortRunsGo_eq :
    ∀ (fuel : Nat) (ps : List Str), ps.length < fuel →
      removeShortRunsGo fuel ps = removeShortRuns ps := by
  intro fuel
  induction fuel using Nat.strong_induction_on with
  | _ fuel ihf =>
    intro ps hlen
    cases ps with
    | nil =>
      cases fuel with
      | zero => simp at hlen
      | succ f => rfl
    | cons p rest =>
      cases fuel with
      | zero => simp at hlen
      | succ f =>
        simp only [List.length_cons] at hlen
        have hrest : rest.length < f := by omega
        have hdrop := length_dropWhile_le (fun q => decide (q.length < 60)) rest
        have e1 : removeShortRuns (p :: rest) =
            removeShortRunsGo (rest.length + 1 + 1) (p :: rest) := by
          rw [removeShortRuns, List.length_cons]
        rw [e1, removeShortRunsGo, removeShortRunsGo]
        by_cases h60 : 60 ≤ p.length
        · rw [if_pos h60, if_pos h60,
            ihf f (by omega) rest hrest,
            ihf (rest.length + 1) (by omega) rest (by omega)]
        · rw [if_neg h60, if_neg h60]
          simp only []
          by_cases h5 :
              5 ≤ (p :: rest.takeWhile (fun q => decide (q.length < 60))).length
          · rw [if_pos h5, if_pos h5,
              ihf f (by omega) _ (by omega),
              ihf (rest.length + 1) (by omega) _ (by omega)]
          · rw [if_neg h5, if_neg h5,
              ihf f (by omega) _ (by omega),
              ihf (rest.length + 1) (by omega) _ (by omega)]

theorem removeShortRuns_cons (p : Str) (rest : List Str) :
    removeShortRuns (p :: rest) =
      if 60 ≤ p.length then p :: removeShortRuns rest
      else
        if 5 ≤ (p :: rest.takeWhile (fun q => decide (q.length < 60))).length then
          removeShortRuns (rest.dropWhile (fun q => decide (q.length < 60)))
        else
          (p :: rest.takeWhile (fun q => decide (q.length < 60))) ++
            removeShortRuns (rest.dropWhile (fun q => decide (q.length < 60))) := by
  have hdrop := length_dropWhile_le (fun q => decide (q.length < 60)) rest
  have e1 : removeShortRuns (p :: rest) =
      removeShortRunsGo (rest.length + 1 + 1) (p :: rest) := by
    rw [removeShortRuns, List.length_cons]
  rw [e1, removeShortRunsGo]
  by_cases h60 : 60 ≤ p.length
  · rw [if_pos h60, if_pos h60, removeShortRunsGo_eq (rest.length + 1) rest (by omega)]
  · rw [if_neg h60, if_neg h60]
    simp only []
    by_cases h5 :
        5 ≤ (p :: rest.takeWhile (fun q => decide (q.length < 60))).length
    · rw [if_pos h5, if_pos h5,
        removeShortRunsGo_eq (rest.length + 1) _ (by omega)]
    · rw [if_neg h5, if_neg h5,
        removeShortRunsGo_eq (rest.length + 1) _ (by omega)]

theorem takeWhile_append_not_all {α : Type} (f : α → Bool) :
    ∀ (l1 l2 : List α) {x : α}, x ∈ l1 → f x = false →
      (l1 ++ l2).takeWhile f = l1.takeWhile f ∧
      (l1 ++ l2).dropWhile f = l1.dropWhile f ++ l2 := by
  intro l1
  induction l1 with
  | nil => intro l2 x hx; simp at hx
  | cons c cs ih =>
    intro l2 x hx hfx
    rcases List.mem_cons.mp hx with heq | hmem
    · subst heq
      simp [List.takeWhile_cons, List.dropWhile_cons, hfx]
    · cases hfc : f c with
      | true =>
        obtain ⟨ht, hd⟩ := ih l2 hmem hfx
        simp [List.takeWhile_cons, List.dropWhile_cons, hfc, ht, hd]
      | false =>
        simp [List.takeWhile_cons, List.dropWhile_cons, hfc]

theorem takeWhile_append_all {α : Type} {f : α → Bool} :
    ∀ {l1 : List α} (l2 : List α), (∀ x ∈ l1, f x = true) →
      (l1 ++ l2).takeWhile f = l1 ++ l2.takeWhile f ∧
      (l1 ++ l2).dropWhile f = l2.dropWhile f := by
  intro l1
  induction l1 with
  | nil => intro l2 _; simp
  | cons c cs ih =>
    intro l2 hall
    have hfc : f c = true := hall c (List.mem_cons_self ..)
    obtain ⟨ht, hd⟩ := ih l2 (fun x hx => hall x (List.mem_cons_of_mem _ hx))
    simp [List.takeWhile_cons, List.dropWhile_cons, hfc, ht, hd]

theorem getLast?_dropWhile {α : Type} {f : α → Bool} {l : List α}
    (h : l.dropWhile f ≠ []) : (l.dropWhile f).getLast? = l.getLast? := by
  obtain ⟨t, ht⟩ := List.dropWhile_suffix (l := l) f
  conv_rhs => rw [← ht]
  rw [List.getLast?_append_of_ne_nil _ h]

theorem removeShortRuns_append :
    ∀ (front back : List Str),
      (∀ p, front.getLast? = some p → 60 ≤ p.length) →
      removeShortRuns (front ++ back) =
        removeShortRuns front ++ removeShortRuns back := by
  suffices H : ∀ (n : Nat) (front back : List Str), front.length = n →
      (∀ p, front.getLast? = some p → 60 ≤ p.length) →
      removeShortRuns (front ++ back) =
        removeShortRuns front ++ removeShortRuns back by
    intro front back hlast
    exact H front.length front back rfl hlast
  intro n
  induction n using Nat.strong_induction_on with
  | _ n ihn =>
    intro front back hn hlast
    cases front with
    | nil => rfl
    | cons p front2 =>
      simp only [List.length_cons] at hn
      have hlast2 : ∀ q, front2.getLast? = some q → 60 ≤ q.length := by
        intro q hq
        cases front2 with
        | nil => simp at hq
        | cons r front3 =>
          exact hlast q (by rw [List.getLast?_cons_cons]; exact hq)
      by_cases h60 : 60 ≤ p.length
      · rw [List.cons_append, removeShortRuns_cons, if_pos h60,
          removeShortRuns_cons, if_pos h60,
          ihn front2.length (by omega) front2 back rfl hlast2]
        simp
      · -- short head: the last element of the front is long, so `front2` is
        -- non-empty, ends long, and the short run cannot cross into `back`
        have hfront2_ne : front2 ≠ [] := by
          intro hnil
          subst hnil
          exact h60 (hlast p (by simp))
        have hq := List.getLast?_eq_getLast front2 hfront2_ne
        have hqlong : 60 ≤ (front2.getLast hfront2_ne).length := hlast2 _ hq
        have hqmem : front2.getLast hfront2_ne ∈ front2 := List.getLast_mem hfront2_ne
        have hqfail : (fun q => decide (q.length < 60)) (front2.getLast hfront2_ne) = false := by
          simp
          omega
        have hboth := takeWhile_append_not_all (fun q => decide (q.length < 60))
          front2 back hqmem hqfail
        have ht := hboth.1
        have hd := hboth.2
        have hdne : front2.dropWhile (fun q => decide (q.length < 60)) ≠ [] := by
          rw [Ne, List.dropWhile_eq_nil_iff]
          push_neg
          exact ⟨_, hqmem, by simp; omega⟩
        have hlast3 : ∀ r,
            (front2.dropWhile (fun q => decide (q.length < 60))).getLast? = some r →
            60 ≤ r.length := by
          intro r hr
          rw [getLast?_dropWhile hdne] at hr
          exact hlast2 r hr
        have hdlen := length_dropWhile_le (fun q => decide (q.length < 60)) front2
        rw [List.cons_append, removeShortRuns_cons, ht, hd,
          removeShortRuns_cons,
          ihn (front2.dropWhile (fun q => decide (q.length < 60))).length
            (by omega) _ back rfl hlast3]
        by_cases h5 :
            5 ≤ (p :: front2.takeWhile (fun q => decide (q.length < 60))).length
        · rw [if_neg h60, if_neg h60, if_pos h5, if_pos h5]
        · rw [if_neg h60, if_neg h60, if_neg h5, if_neg h5]
          try simp

theorem removeShortRuns_run :
    ∀ (run back : List Str),
      (∀ p ∈ run, p.length < 60) →
      (∀ q, back.head? = some q → 60 ≤ q.length) →
      removeShortRuns (run ++ back) =
        (if 5 ≤ run.length then [] else run) ++ removeShortRuns back := by
  intro run back hshort hback
  cases run with
  | nil => simp
  | cons p run2 =>
    have hp : p.length < 60 := hshort p (List.mem_cons_self ..)
    have hall : ∀ x ∈ run2, (fun q => decide (q.length < 60)) x = true := by
      intro x hx
      simp
      exact hshort x (List.mem_cons_of_mem _ hx)
    obtain ⟨ht, hd⟩ := takeWhile_append_all back hall
    have htb : back.takeWhile (fun q => decide (q.length < 60)) = [] := by
      cases back with
      | nil => rfl
      | cons q back2 =>
        have hlong := hback q rfl
        have hf : decide (q.length < 60) = false := by simp; omega
        simp [List.takeWhile_cons, hf]
    have hdb : back.dropWhile (fun q => decide (q.length < 60)) = back := by
      cases back with
      | nil => rfl
      | cons q back2 =>
        have hlong := hback q rfl
        have hf : decide (q.length < 60) = false := by simp; omega
        simp [List.dropWhile_cons, hf]
    rw [List.cons_append, removeShortRuns_cons, if_neg (by omega), ht, hd, htb,
      hdb]
    simp only [List.append_nil]
    by_cases h5 : 5 ≤ (p :: run2).length
    · rw [if_pos (by simpa using h5), if_pos h5]
      try simp
    · rw [if_neg (by simpa using h5), if_neg h5]
      try simp

theorem extractPagesGo_bad {doc : PdfDoc} :
    ∀ {idxs : List Int},
      (∃ i ∈ idxs, i < 0 ∨ (doc.pdfPages.length : Int) ≤ i) →
      ∃ j ∈ idxs, (j < 0 ∨ (doc.pdfPages.length : Int) ≤ j) ∧
        extractPagesGo doc idxs =
          .error (.outOfRange j doc.pdfPages.length) := by
  intro idxs
  induction idxs with
  | nil => intro h; simp at h
  | cons i rest ih =>
    intro h
    by_cases hb : i < 0 ∨ (doc.pdfPages.length : Int) ≤ i
    · refine ⟨i, List.mem_cons_self .., hb, ?_⟩
      rw [extractPagesGo, if_pos (by simpa using hb)]
    · have hex : ∃ j ∈ rest, j < 0 ∨ (doc.pdfPages.length : Int) ≤ j := by
        rcases h with ⟨j, hj, hbad⟩
        rcases List.mem_cons.mp hj with rfl | hmem
        · exact absurd hbad hb
        · exact ⟨j, hmem, hbad⟩
      obtain ⟨j, hjm, hjb, heq⟩ := ih hex
      refine ⟨j, List.mem_cons_of_mem _ hjm, hjb, ?_⟩
      rw [extractPagesGo, if_neg (by simpa using hb)]
      simp only []
      rw [heq]

theorem extractBracedGo_noclose (text : Str) (pos : Nat) :
    ∀ (suffix : Str) (i depth : Nat), hasMatchingCloseGo suffix depth = false →
      extractBracedGo text pos suffix i depth =
        (text.drop (pos + 1), text.length) := by
  intro suffix i depth
  induction suffix, i, depth using extractBracedGo.induct text pos with
  | case1 i depth => intro _; rfl
  | case2 i depth => intro _; simp [extractBracedGo]
  | case3 i depth head rest2 ih =>
    intro hno
    rw [hasMatchingCloseGo.eq_def] at hno
    simp only [ite_true] at hno
    rw [extractBracedGo.eq_def]
    simp only [ite_true]
    exact ih hno
  | case4 rest i depth hne ih =>
    intro hno
    rw [hasMatchingCloseGo.eq_def] at hno
    simp only [if_neg hne, ite_true, if_pos rfl] at hno
    rw [extractBracedGo.eq_def]
    simp only [if_neg hne, ite_true, if_pos rfl]
    exact ih hno
  | case5 rest i h1 h2 =>
    intro hno
    rw [hasMatchingCloseGo.eq_def] at hno
    simp only [if_neg h1, if_neg h2, ite_true, if_pos rfl] at hno
    simp at hno
  | case6 rest i depth hdep h1 h2 ih =>
    intro hno
    rw [hasMatchingCloseGo.eq_def] at hno
    simp only [if_neg h1, if_neg h2, ite_true, if_pos rfl, if_neg hdep] at hno
    rw [extractBracedGo.eq_def]
    simp only [if_neg h1, if_neg h2, ite_true, if_pos rfl, if_neg hdep]
    exact ih hno
  | case7 ch rest i depth h1 h2 h3 ih =>
    intro hno
    rw [hasMatchingCloseGo.eq_def] at hno
    simp only [if_neg h1, if_neg h2, if_neg h3, ite_true] at hno
    rw [extractBracedGo.eq_def]
    simp only [if_neg h1, if_neg h2, if_neg h3, ite_true]
    exact ih hno

/-- Claim C4: balanced-delimiter extraction returns empty content at the
unchanged position when no opening brace is at `pos`; with an opening brace
but no matching close (per the escape-skipping depth scan) it returns all
remaining text after the brace and the end-of-text position, never an error;
an escaped brace does not affect nesting depth; and the two concrete examples
of the spec hold. -/
theorem claim_C4 :
    (∀ (text : Str) (pos : Nat),
        (∀ h : pos < text.length, text.get ⟨pos, h⟩ ≠ '\x7b') →
        extractBraced text pos = ([], pos))
    ∧ (∀ (text : Str) (pos : Nat),
        hasMatchingClose text pos = false →
        (∃ h : pos < text.length, text.get ⟨pos, h⟩ = '\x7b') →
        extractBraced text pos = (text.drop (pos + 1), text.length))
    ∧ extractBraced (str "\x7ba\\\x7db\x7d") 0 = (str "a\\\x7db", 6)
    ∧ extractBraced (str "\x7ba\x7bb\x7dc\x7d") 0 = (str "a\x7bb\x7dc", 7)
    ∧ extractBraced (str "hello") 0 = (str "", 0) := by
  refine ⟨?_, ?_, by decide, by decide, by decide⟩
  · intro text pos hno
    rw [extractBraced.eq_def]
    split
    case _ x heq =>
      exfalso
      have hlt : pos < text.length := by
        have := congrArg List.length heq
        simp [List.length_drop] at this
        omega
      have hdc : text.drop pos = text.get ⟨pos, hlt⟩ :: text.drop (pos + 1) := by
        simpa using List.drop_eq_getElem_cons hlt
      rw [heq] at hdc
      injection hdc with h1 _
      exact hno hlt h1.symm
    case _ => rfl
  · intro text pos hnoclose hopen
    obtain ⟨hlt, hbrace⟩ := hopen
    have hdc : text.drop pos = text.get ⟨pos, hlt⟩ :: text.drop (pos + 1) := by
      simpa using List.drop_eq_getElem_cons hlt
    rw [extractBraced.eq_def]
    split
    case _ x heq =>
      exact extractBracedGo_noclose text pos (text.drop pos) pos 0 hnoclose
    case _ hne =>
      exfalso
      exact hne (text.drop (pos + 1)) (by rw [hdc, hbrace])

/-- Witness for the universally quantified parts of the C4 theorem at
concrete inputs: no opening brace at position 0 of `"hello"`, and an opening
brace with no matching close in `"{ab"`. -/
theorem claim_C4_witness :
    extractBraced (str "hello") 0 = (str "", 0)
    ∧ extractBraced (str "\x7bab") 0 = ((str "\x7bab").drop 1, 3) :=
  ⟨claim_C4.1 (str "hello") 0 (by decide),
   claim_C4.2.1 (str "\x7bab") 0 (by decide) ⟨by decide, by decide⟩⟩

/-- Claim C5: environment extraction scans for the end directive of the same
name with a depth counter (a further same-named begin increments, an end
decrements, stopping at depth zero, shown on a nested concrete instance),
and when no end directive exists it returns all remaining text with the
end-of-text position rather than raising an error. -/
theorem claim_C5 :
    (∀ (text : Str) (s : Nat) (name : Str),
        searchFrom (envTagP (str "end") name) text s = none →
        findEnvEnd text s name = (text.drop s, text.length))
    ∧ findEnvEnd
        (str "outer\\begin\x7bquote\x7dinner\\end\x7bquote\x7dmore\\end\x7bquote\x7d")
        0 (str "quote")
      = (str "outer\\begin\x7bquote\x7dinner\\end\x7bquote\x7dmore", 49)
    ∧ findEnvEnd (str "body text\\end\x7bquote\x7d") 0 (str "quote")
      = (str "body text", 20)
    ∧ findEnvEnd (str "some text with no end") 0 (str "figure")
      = (str "some text with no end", 21) := by
  refine ⟨?_, by decide, by decide, by decide⟩
  intro text s name h
  rw [findEnvEnd, findEnvEndLoop, h]

/-- Witness for the graceful-degradation part of the C5 theorem: a text with
no end directive at all. -/
theorem claim_C5_witness :
    findEnvEnd (str "abc") 0 (str "quote") = ((str "abc").drop 0, 3) :=
  claim_C5.1 (str "abc") 0 (str "quote") (by decide)

/-- Claim C8: the markup-to-text cleaner unwraps `\textbf{hello}` to
`hello`, removes citation commands together with their arguments while
keeping surrounding prose, and replaces inline math with the literal word
`formula`, leaving no dollar sign. -/
theorem claim_C8 :
    cleanText (str "\\textbf\x7bhello\x7d") = str "hello"
    ∧ (str "for details") <:+: cleanText (str "\\cite\x7bsmith2020\x7d for details")
    ∧ ¬ (str "cite") <:+: cleanText (str "\\cite\x7bsmith2020\x7d for details")
    ∧ ¬ (str "smith") <:+: cleanText (str "\\cite\x7bsmith2020\x7d for details")
    ∧ (str "formula") <:+: cleanText (str "$p < 0.01$")
    ∧ ¬ '$' ∈ cleanText (str "$p < 0.01$") := by
  refine ⟨by decide, ?_, ?_, ?_, ?_, by decide⟩
  · exact ⟨[], str "", by decide⟩
  · intro hc
    have : cleanText (str "\\cite\x7bsmith2020\x7d for details") = str "for details" := by decide
    rw [this] at hc
    revert hc
    decide
  · intro hc
    have : cleanText (str "\\cite\x7bsmith2020\x7d for details") = str "for details" := by decide
    rw [this] at hc
    revert hc
    decide
  · exact ⟨[], str "", by decide⟩

/-- Claim C2: a heading at level L (0 section, 1 subsection,
2 subsubsection) increments `counters[L]` and resets every deeper counter to
zero while preserving the shallower ones; and the four-heading input of the
spec emits the labels `1.`, `1.1`, `2.`, `2.1` in order. -/
theorem claim_C2 :
    (∀ a b c : Nat,
        bumpCounters [a, b, c] 0 = some [a + 1, 0, 0]
        ∧ bumpCounters [a, b, c] 1 = some [a, b + 1, 0]
        ∧ bumpCounters [a, b, c] 2 = some [a, b, c + 1])
    ∧ parseBody
        (str "\\section\x7bS1\x7d\\subsection\x7bS1.1\x7d\\section\x7bS2\x7d\\subsection\x7bS2.1\x7d")
        [0, 0, 0] false
      = .ok ([Element.Headline (str "1. S1"), Element.Headline (str "1.1 S1.1"),
              Element.Headline (str "2. S2"), Element.Headline (str "2.1 S2.1")],
             [2, 1, 0]) := by
  refine ⟨fun a b c => ⟨rfl, rfl, rfl⟩, by decide⟩

/-- Claim C7 (part of the table handler contract): the tabular body of the
spec converts to the two rows `A   B` and `1   2` with empty rows skipped;
the handler emits the table text first, then every caption, then the
trailing notes; a trailing-notes caption only appears when the cleaned text
after the tabular environment is longer than 5 characters; and a concrete
caption-plus-tabular body produces exactly `Table` then `Table_caption`. -/
theorem claim_C7 :
    tabularToText (str "A & B \\\\ 1 & 2 \\\\") = str "A   B\n1   2"
    ∧ (∀ text, parseTableEnv text =
        (if !(tableTabularText text).isEmpty
          then [Element.Table (tableTabularText text)] else [])
        ++ (collectCaptions text).map Element.TableCaption
        ++ tableNotes text)
    ∧ (∀ text e, e ∈ tableNotes text →
        ∃ s2, e = Element.TableCaption s2 ∧ 5 < s2.length)
    ∧ (∀ text s k, searchFrom endTabularP text 0 = some (s, k) →
        (tableNotes text ≠ [] ↔
          5 < (pyStrip (cleanText (substAll (withRep [] endTableMarkP)
            (text.drop (s + k))))).length))
    ∧ parseTableEnv
        (str "\\caption\x7bMy Caption\x7d\n\\begin\x7btabular\x7d\x7blc\x7d\nA & B \\\\\n1 & 2 \\\\\n\\end\x7btabular\x7d\n")
      = [Element.Table (str "A   B\n1   2"),
         Element.TableCaption (str "My Caption")] := by
  refine ⟨by decide, fun text => rfl, fun text e he => tableNotes_mem he,
    ?_, by decide⟩
  intro text s k h
  rw [tableNotes, h]
  simp only []
  generalize pyStrip (cleanText (substAll (withRep [] endTableMarkP)
    (text.drop (s + k)))) = notes0
  split
  case isTrue hcond =>
    simp at hcond
    simp [hcond.2]
  case isFalse hcond =>
    simp at hcond
    simp only [ne_eq, not_true_eq_false, false_iff, not_lt]
    by_cases hnil : notes0 = []
    · rw [hnil]; simp
    · exact hcond hnil

/-- Witness for the trailing-notes conjunct of the C7 theorem at a concrete
table body whose notes are long enough. -/
theorem claim_C7_witness :
    tableNotes (str "\\begin\x7btabular\x7d\x7bl\x7d\nA \\\\\n\\end\x7btabular\x7d\nNotes: a rather long note.") ≠ [] ↔
      5 < (pyStrip (cleanText (substAll (withRep [] endTableMarkP)
        ((str "\\begin\x7btabular\x7d\x7bl\x7d\nA \\\\\n\\end\x7btabular\x7d\nNotes: a rather long note.").drop (24 + 13))))).length :=
  claim_C7.2.2.2.1
    (str "\\begin\x7btabular\x7d\x7bl\x7d\nA \\\\\n\\end\x7btabular\x7d\nNotes: a rather long note.")
    24 13 (by decide)

/-- Claim C9 counterexample: the walker's token pattern also matches the
level-3 command `\subsubsubsection`, and the counter update then raises
`IndexError` (`counters[3] += 1`), so this heading command emits no
`Headline` at all — the parse fails instead. -/
theorem claim_C9_counterexample :
    parseBody (str "\\subsubsubsection\x7bX\x7d") [0, 0, 0] false
      = .error PErr.indexErr := by decide

/-- Claim C9 as amended: heading commands of level at most 2 never fail the
counter update; a heading with an empty or absent braced argument still
emits exactly one `Headline` carrying just the label and a trailing space;
and every other element kind is emitted only through a filter (paragraphs
need more than 10 characters, abstracts, tables and captions must be
non-empty, and no title is emitted by the walker), while `Headline` has no
such filter. -/
theorem claim_C9 :
    (∀ a b c lvl : Nat, lvl ≤ 2 → ∃ out, bumpCounters [a, b, c] lvl = some out)
    ∧ parseBody (str "\\section\x7b\x7d") [0, 0, 0] false
        = .ok ([Element.Headline (str "1. ")], [1, 0, 0])
    ∧ parseBody (str "\\section") [0, 0, 0] false
        = .ok ([Element.Headline (str "1. ")], [1, 0, 0])
    ∧ (∀ fuel text pos buf c a r, parseBodyGo fuel text pos buf c a = .ok r →
        ∀ e ∈ r.1, elemGuard e) := by
  refine ⟨?_, by decide, by decide, parseBodyGo_elem_shape⟩
  intro a b c lvl hlvl
  interval_cases lvl
  · exact ⟨[a + 1, 0, 0], rfl⟩
  · exact ⟨[a, b + 1, 0], rfl⟩
  · exact ⟨[a, b, c + 1], rfl⟩

/-- Witness for the quantified parts of the C9 theorem: the level-2 counter
update succeeds, and the guards hold on a concrete successful parse. -/
theorem claim_C9_witness :
    (∃ out, bumpCounters [0, 0, 0] 2 = some out)
    ∧ elemGuard (Element.Headline (str "1. ")) :=
  ⟨claim_C9.1 0 0 0 2 (by decide),
   claim_C9.2.2.2 12 (str "\\section\x7b\x7d") 0 [] [0, 0, 0] false
     ([Element.Headline (str "1. ")], [1, 0, 0]) (by decide)
     (Element.Headline (str "1. ")) (by decide)⟩

/-- Claim C1 counterexample: the `in_appendix` flag is not shared by
reference — it is a boolean passed by value into recursive descents.  An
`\appendix` inside a `center` environment resets the shared counters (the
second section is numbered 1 again) but does not switch the enclosing
level to letter labels: the headline after the switch is `1. B`, not
`A. B`. -/
theorem claim_C1_counterexample :
    parseBody
      (str "\\section\x7bA\x7d\\begin\x7bcenter\x7d\\appendix\\end\x7bcenter\x7d\\section\x7bB\x7d")
      [0, 0, 0] false
    = .ok ([Element.Headline (str "1. A"), Element.Headline (str "1. B")],
           [1, 0, 0]) := by decide

/-- Claim C1 as amended: the section counters are shared across descents,
and the `in_appendix` flag propagates downward only — once an invocation
runs with the flag set, it and all its descents emit only letter-mode
(appendix-formatted) headline labels; the switch persists at its own level
and into later descents, but a switch inside a nested environment does not
leak back out, where numbering stays numeral-mode. -/
theorem claim_C1 :
    (∀ fuel text pos buf c r, parseBodyGo fuel text pos buf c true = .ok r →
        ∀ t, Element.Headline t ∈ r.1 →
          ∃ lvl cs hd, t = headingLabel lvl cs true ++ [ ' ' ] ++ hd)
    ∧ parseBody (str "\\appendix\\section\x7bX\x7d") [0, 0, 0] false
        = .ok ([Element.Headline (str "A. X")], [1, 0, 0])
    ∧ parseBody (str "\\appendix\\begin\x7bcenter\x7d\\section\x7bX\x7d\\end\x7bcenter\x7d")
        [0, 0, 0] false
        = .ok ([Element.Headline (str "A. X")], [1, 0, 0])
    ∧ parseBody (str "\\begin\x7bcenter\x7d\\appendix\\end\x7bcenter\x7d\\section\x7bX\x7d")
        [0, 0, 0] false
        = .ok ([Element.Headline (str "1. X")], [1, 0, 0]) :=
  ⟨parseBodyGo_appendix_headlines, by decide, by decide, by decide⟩

/-- Witness for the quantified part of the C1 theorem: a concrete
appendix-mode parse whose single headline is letter-labelled. -/
theorem claim_C1_witness :
    ∃ lvl cs hd, str "A. X" = headingLabel lvl cs true ++ [ ' ' ] ++ hd :=
  claim_C1.1 12 (str "\\section\x7bX\x7d") 0 [] [0, 0, 0]
    ([Element.Headline (str "A. X")], [1, 0, 0]) (by decide)
    (str "A. X") (by decide)

/-- Claim C3: the reconstructor fails with a not-found error when the source
document path does not resolve, fails with an out-of-range error naming the
invalid index and the document length whenever the requested range contains
an index below 0 or at least the page count, and in particular requesting
page 99 of a 1-page document yields `outOfRange 99 1`. -/
theorem claim_C3 :
    (∀ fs path pages, fs path = none →
        extractText fs path pages = .error (.notFound path))
    ∧ (∀ fs path doc start stop, fs path = some doc →
        (∃ i ∈ rangeInts start stop, i < 0 ∨ (doc.pdfPages.length : Int) ≤ i) →
        ∃ j ∈ rangeInts start stop,
          (j < 0 ∨ (doc.pdfPages.length : Int) ≤ j) ∧
          extractText fs path (some (start, stop)) =
            .error (.outOfRange j doc.pdfPages.length))
    ∧ (∀ fs path doc, fs path = some doc → doc.pdfPages.length = 1 →
        extractText fs path (some (99, 100)) = .error (.outOfRange 99 1)) := by
  refine ⟨?_, ?_, ?_⟩
  · intro fs path pages h
    rw [extractText, h]
  · intro fs path doc start stop hfs hex
    obtain ⟨j, hjm, hjb, heq⟩ := extractPagesGo_bad hex
    refine ⟨j, hjm, hjb, ?_⟩
    rw [extractText, hfs]
    simp only []
    rw [heq]
  · intro fs path doc hfs hlen
    have h99 : rangeInts 99 100 = [99] := by decide
    rw [extractText, hfs]
    simp only []
    rw [h99, extractPagesGo, if_pos (by simp [hlen]), hlen]

/-- Witness for the C3 theorem: a missing path and a concrete one-page
document asked for page 99. -/
theorem claim_C3_witness :
    extractText (fun _ => none) (str "paper.pdf") none
      = .error (.notFound (str "paper.pdf"))
    ∧ extractText (fun _ => some ⟨[⟨[], []⟩]⟩) (str "paper.pdf")
        (some (99, 100)) = .error (.outOfRange 99 1) :=
  ⟨claim_C3.1 (fun _ => none) (str "paper.pdf") none rfl,
   claim_C3.2.2 (fun _ => some ⟨[⟨[], []⟩]⟩) (str "paper.pdf") ⟨[⟨[], []⟩]⟩
     rfl rfl⟩

/-- Claim C6: a maximal run of short paragraphs (each under 60 characters,
with a long paragraph or the list boundary on both sides) is dropped
entirely when it has at least 5 members and kept unchanged otherwise; in
particular 8 consecutive short fragments between two long paragraphs all
disappear and 3 consecutive short fragments are all kept. -/
theorem claim_C6 :
    (∀ front run back : List Str,
        (∀ p, front.getLast? = some p → 60 ≤ p.length) →
        (∀ p ∈ run, p.length < 60) →
        (∀ q, back.head? = some q → 60 ≤ q.length) →
        removeShortRuns (front ++ run ++ back) =
          removeShortRuns front ++ (if 5 ≤ run.length then [] else run)
            ++ removeShortRuns back)
    ∧ removeShortRuns
        ([List.replicate 60 'a'] ++ List.replicate 8 (str "x")
          ++ [List.replicate 60 'a']) =
        [List.replicate 60 'a', List.replicate 60 'a']
    ∧ removeShortRuns
        ([List.replicate 60 'a'] ++ List.replicate 3 (str "x")
          ++ [List.replicate 60 'a']) =
        [List.replicate 60 'a'] ++ List.replicate 3 (str "x")
          ++ [List.replicate 60 'a'] := by
  refine ⟨?_, by decide, by decide⟩
  intro front run back hfront hrun hback
  rw [List.append_assoc front run back,
    removeShortRuns_append front (run ++ back) hfront,
    removeShortRuns_run run back hrun hback, List.append_assoc]

/-- Witness for the run decomposition of the C6 theorem at concrete lists. -/
theorem claim_C6_witness :
    removeShortRuns ([List.replicate 60 'a'] ++ [str "x"] ++ []) =
      removeShortRuns [List.replicate 60 'a']
        ++ (if 5 ≤ ([str "x"] : List Str).length then [] else [str "x"])
        ++ removeShortRuns ([] : List Str) :=
  claim_C6.1 [List.replicate 60 'a'] [str "x"] []
    (by intro p hp; simp at hp; subst hp; decide)
    (by decide)
    (by intro q hq; simp at hq)

/-- Claim C10: the body walker terminates on every input — each matched
token is non-empty so the scan position strictly increases, every handler
resumes at or after the token end, environment extraction returns content
no longer than the remaining text and an end position no earlier than the
content start, the item-marker rewrite never lengthens its input, and a
recursion-depth budget of the input length plus one is never exhausted. -/
theorem claim_C10 :
    (∀ (text : Str) (pos s k : Nat) (tm : TokenM),
        searchInfo tokenP text pos = some (s, tm, k) → pos < s + k)
    ∧ (∀ (text : Str) (pos : Nat), pos ≤ skipOptionalArg text pos)
    ∧ (∀ (text : Str) (pos : Nat), pos ≤ (extractBraced text pos).2)
    ∧ (∀ (text : Str) (s : Nat) (name : Str), s ≤ text.length →
        s ≤ (findEnvEnd text s name).2
        ∧ (findEnvEnd text s name).1.length ≤ text.length - s)
    ∧ (∀ s : Str, (itemsRewrite s).length ≤ s.length)
    ∧ (∀ (text : Str) (c : List Nat) (a : Bool),
        parseBody text c a ≠ .error PErr.fuelEx) := by
  refine ⟨?_, skipOptionalArg_ge, extractBraced_snd_ge, ?_, itemsRewrite_le, ?_⟩
  · intro text pos s k tm h
    have h1 := searchInfo_le h
    have h2 := tokenP_bounds (searchInfo_matches h)
    omega
  · intro text s name hs
    exact ⟨findEnvEnd_snd_ge hs, findEnvEnd_fst_len text s name⟩
  · intro text c a
    exact parseBodyGo_no_fuelEx (text.length + 1) text 0 [] c a (by omega)

/-- Witness for the hypotheses of the C10 theorem: a concrete token match
and a concrete environment extraction. -/
theorem claim_C10_witness :
    (0 < 0 + 10)
    ∧ (0 ≤ (findEnvEnd (str "ab") 0 (str "q")).2
        ∧ (findEnvEnd (str "ab") 0 (str "q")).1.length ≤ (str "ab").length - 0) :=
  ⟨claim_C10.1 (str "\\maketitle") 0 0 10
      ⟨str "\\maketitle", none, none⟩ (by decide),
   claim_C10.2.2.2.1 (str "ab") 0 (str "q") (by decide)⟩

end PdfToSpeech
